import Mathlib

/-!
Verification of the 8-puzzle solver in `TileSolver.py`.

The embedding mirrors the Python source:
* `Puzzle` holds the 3x3 board as a list of rows of naturals
  (`board`), with the fixed goal array `goal_state`.
* `cell b i j` is `board[i][j]`; out-of-range indexing is modelled with the
  default `0`/`[]` (the claims below only concern well-formed boards, where
  every access the source makes is in bounds).
* Python's `sorted` is a stable sort; it is modelled by
  `List.insertionSort`, which is the stable sort (Mathlib's `orderedInsert`
  inserts an element before every element it ties with, all of which came
  later in the input list).
* The set of seen state strings is modelled as a `List String` with
  membership, and the `collections.deque` as a `List Node` whose head is the
  left end.
* The three solver methods are textually identical in the source except for
  the sort key; they are embedded as one loop `searchLoop` parameterised by
  the key, applied to the three keys `f`, `g`, `h`.  The loop takes explicit
  fuel; running out of fuel yields `none`, while `some (none, seen)` models
  the Python function falling off the `while` loop and returning `None`, and
  `some (some path, seen)` models `return node.path`.  The final seen set is
  returned as instrumentation for stating frontier-exhaustion facts.
-/

namespace TileSolver

/-- A board is a list of rows, as the Python list-of-lists. -/
abbrev Board := List (List Nat)

/-- `board[i][j]` (in bounds whenever the source evaluates it on the boards
considered by the claims). -/
def cell (b : Board) (i j : Nat) : Nat := (b.getD i []).getD j 0

/-- assignment `board[i][j] = v`. -/
def setCell (b : Board) (i j v : Nat) : Board := b.set i ((b.getD i []).set j v)

/-- The `Puzzle` class: its only data is the board (`goal_state` and `width`
are derived). -/
structure Puzzle where
  board : Board
deriving DecidableEq

namespace Puzzle

/-- `self.width = len(board[0])`. -/
def width (p : Puzzle) : Nat := (p.board.getD 0 []).length

/-- the numpy goal array from `Puzzle.__init__`. -/
def goal_state : Board := [[1, 2, 3], [8, 0, 4], [7, 6, 5]]

/-- `__iter__`: row-major traversal of the board. -/
def flat (p : Puzzle) : List Nat := p.board.flatten

/-- `__str__`: concatenation of the decimal representations of the entries. -/
def toStr (p : Puzzle) : String := String.join (p.flat.map (fun n => Nat.repr n))

/-- the `solved` property: string comparison with `'123804765'`. -/
def solved (p : Puzzle) : Bool := p.toStr == "123804765"

/-- `np.where(goal_state == v)` followed by `[0][0]` and `[1][0]`: the row and
column of the first row-major occurrence of `v` in the goal array (the claims
only use values that do occur; the default is irrelevant for them). -/
def goalCoord (v : Nat) : Nat × Nat :=
  ((List.range 3).flatMap (fun r => (List.range 3).filterMap (fun c =>
    if cell goal_state r c = v then some (r, c) else none))).headD (0, 0)

/-- the `manhattan` property: sum over the nine cells of the taxicab distance
from each non-blank value's position to its goal position. -/
def manhattan (p : Puzzle) : Nat :=
  ((List.range 3).flatMap (fun i => (List.range 3).map (fun j =>
    if cell p.board i j ≠ 0 then
      Nat.dist (goalCoord (cell p.board i j)).1 i +
        Nat.dist (goalCoord (cell p.board i j)).2 j
    else 0))).sum

/-- The per-cell summand of `manhattan`: the contribution of value `v` sitting
at position `(i, j)`. -/
def mterm (v i j : Nat) : Nat :=
  if v ≠ 0 then Nat.dist (goalCoord v).1 i + Nat.dist (goalCoord v).2 j else 0

/-- `copy`: a fresh puzzle with a row-by-row copy of the board. -/
def copy (p : Puzzle) : Puzzle := ⟨p.board.map (fun row => row.map (fun x => x))⟩

/-- `_move(at, to)`: a new puzzle in which the entries at `at` and `to` have
been exchanged (the source copies first, then performs the simultaneous
assignment on the copy). -/
def move (p : Puzzle) (ij rc : Nat × Nat) : Puzzle :=
  let cp := p.copy
  let x := cell cp.board ij.1 ij.2
  let y := cell cp.board rc.1 rc.2
  ⟨setCell (setCell cp.board ij.1 ij.2 y) rc.1 rc.2 x⟩

/-- the `actions` property: for every cell `(i, j)` in row-major order and
each direction `R`, `L`, `D`, `U` in that order, if the target cell is in
bounds and holds `0`, the move sliding the tile at `(i, j)` into the blank.
The Python closures are evaluated eagerly here (the puzzle is never mutated,
so the value is the same). -/
def actions (p : Puzzle) : List (Puzzle × Char) :=
  (List.range p.width).flatMap (fun i =>
    (List.range p.width).flatMap (fun j =>
      [('R', ((i : Int), (j : Int) - 1)), ('L', ((i : Int), (j : Int) + 1)),
       ('D', ((i : Int) - 1, (j : Int))), ('U', ((i : Int) + 1, (j : Int)))].filterMap
        (fun ac =>
          if 0 ≤ ac.2.1 ∧ ac.2.1 < (p.width : Int) ∧ 0 ≤ ac.2.2 ∧
              ac.2.2 < (p.width : Int) ∧ cell p.board ac.2.1.toNat ac.2.2.toNat = 0 then
            some (p.move (i, j) (ac.2.1.toNat, ac.2.2.toNat), ac.1)
          else none)))

end Puzzle

/-- The `Node` class: a puzzle plus an optional parent and producing action
(the parentless constructor is `root`). -/
inductive Node where
  | root (puzzle : Puzzle)
  | child (puzzle : Puzzle) (parent : Node) (action : Char)
deriving DecidableEq

namespace Node

/-- the `puzzle` field. -/
def puzzle : Node → Puzzle
  | root p => p
  | child p _ _ => p

/-- `g`: `0` at the root, `parent.g + 1` otherwise. -/
def g : Node → Nat
  | root _ => 0
  | child _ par _ => par.g + 1

/-- the `h` property. -/
def h (n : Node) : Nat := n.puzzle.manhattan

/-- the `f` property (`h + g`). -/
def f (n : Node) : Nat := n.h + n.g

/-- the `score` property (`g + h`). -/
def score (n : Node) : Nat := n.g + n.h

/-- the `state` property: the hashable string key. -/
def state (n : Node) : String := n.puzzle.toStr

/-- the `solved` property. -/
def solved (n : Node) : Bool := n.puzzle.solved

/-- the `actions` property. -/
def actions (n : Node) : List (Puzzle × Char) := n.puzzle.actions

/-- the `path` property: the ancestor chain, returned root first. -/
def path : Node → List Node
  | root p => [root p]
  | child p par a => par.path ++ [child p par a]

end Node

/-- One step of the `for move, action in node.actions` loop: if the child's
state string is unseen, push the child on the left of the queue and record its
state. -/
def expandOne (node : Node) (qs : List Node × List String) (mv : Puzzle × Char) :
    List Node × List String :=
  if (Node.child mv.1 node mv.2).state ∈ qs.2 then qs
  else (Node.child mv.1 node mv.2 :: qs.1, (Node.child mv.1 node mv.2).state :: qs.2)

/-- The whole child-generation loop of one expansion. -/
def stepExpand (node : Node) (queue : List Node) (seen : List String) :
    List Node × List String :=
  node.actions.foldl (expandOne node) (queue, seen)

/-- The common `while queue:` loop of the three solver methods, parameterised
by the sort key.  Each iteration stably re-sorts the queue by the key, pops
the left end, returns its path if it is solved, and otherwise expands it. -/
def searchLoop (key : Node → Nat) :
    Nat → List Node → List String → Option (Option (List Node) × List String)
  | 0, _, _ => none
  | _ + 1, [], seen => some (none, seen)
  | fuel + 1, q :: qs, seen =>
    match List.insertionSort (fun a b => key a ≤ key b) (q :: qs) with
    | [] => some (none, seen)
    | node :: rest =>
      if node.solved then some (some node.path, seen)
      else
        let next := stepExpand node rest seen
        searchLoop key fuel next.1 next.2

/-- The `Solver` class. -/
structure Solver where
  start : Puzzle

namespace Solver

/-- `solve_a_star`: the loop with key `f`, started from the root node with its
state already seen. -/
def solve_a_star (s : Solver) (fuel : Nat) :
    Option (Option (List Node) × List String) :=
  searchLoop (fun n => n.f) fuel [Node.root s.start] [(Node.root s.start).state]

/-- `solve_uniform_cost`: the same loop with key `g`. -/
def solve_uniform_cost (s : Solver) (fuel : Nat) :
    Option (Option (List Node) × List String) :=
  searchLoop (fun n => n.g) fuel [Node.root s.start] [(Node.root s.start).state]

/-- `solve_best_first_search`: the same loop with key `h`. -/
def solve_best_first_search (s : Solver) (fuel : Nat) :
    Option (Option (List Node) × List String) :=
  searchLoop (fun n => n.h) fuel [Node.root s.start] [(Node.root s.start).state]

end Solver

/-- Well-formed 3x3 board: three rows of three cells whose entries are a
permutation of `0..8`. -/
def WF (p : Puzzle) : Prop :=
  p.board.length = 3 ∧ (∀ row ∈ p.board, row.length = 3) ∧
    p.flat.Perm [0, 1, 2, 3, 4, 5, 6, 7, 8]

instance : DecidablePred WF := fun p => by
  unfold WF; infer_instance

/-- The goal puzzle (the board the `goal_state` array denotes). -/
def goalPuzzle : Puzzle := ⟨Puzzle.goal_state⟩

/-- One legal move: `q` is a successor state of `p` (some entry of `actions`). -/
def StepB (p q : Puzzle) : Prop := ∃ a : Char, (q, a) ∈ p.actions

/-- `Steps p q n`: `q` is reachable from `p` in exactly `n` legal moves. -/
inductive Steps : Puzzle → Puzzle → Nat → Prop where
  | refl (p : Puzzle) : Steps p p 0
  | tail {p q r : Puzzle} {n : Nat} : Steps p q n → StepB q r → Steps p r (n + 1)

/-- `int(c)` applied to a one-character string: its value for a digit
character, and `none` for the uncaught `ValueError` otherwise. -/
def charToInt (c : Char) : Option Nat :=
  if c.isDigit then some (c.toNat - '0'.toNat) else none

/-- The chunking loop of `Game.run`: for every index divisible by 3 the slice
`input_str[index:index+3]` becomes one row of characters. -/
def chunkRows (s : List Char) : List (List Char) :=
  (List.range s.length).filterMap (fun index =>
    if index % 3 = 0 then some ((s.drop index).take 3) else none)

/-- Sequencing of fallible element conversions: the first failure (a raised
`ValueError`) aborts the whole conversion. -/
def optList {α : Type} : List (Option α) → Option (List α)
  | [] => some []
  | none :: _ => none
  | some x :: rest => (optList rest).map (fun t => x :: t)

/-- The conversion loop of `Game.run`: every character through `int`. -/
def rowsToInts (rows : List (List Char)) : Option Board :=
  optList (rows.map (fun row => optList (row.map charToInt)))

/-- `Game.run` up to the construction of the `Puzzle`: the board the search
is started on, or `none` when `int()` raises.  No other validation exists in
the source. -/
def game_parse (input : String) : Option Board :=
  rowsToInts (chunkRows input.data)

/-- `Game.run` through the `switch` dispatch: parse the input, build the
`Solver`, evaluate all three strategies (Python builds the whole `switcher`
dict) and look up the selected mode. -/
def game_run (input : String) (algo_mode : Nat) (fuel : Nat) :
    Option (Option (Option (List Node) × List String)) :=
  (game_parse input).map (fun b =>
    let s : Solver := ⟨⟨b⟩⟩
    let switcher := [(1, s.solve_uniform_cost fuel), (2, s.solve_best_first_search fuel),
                     (3, s.solve_a_star fuel)]
    (switcher.lookup algo_mode).getD none)

/-- A node is rooted at `s`: the root holds `s` and every child node was
built from one of its parent's actions. -/
def Node.validFrom (s : Puzzle) : Node → Prop
  | Node.root p => p = s
  | Node.child p par act => ((p, act) ∈ par.actions) ∧ Node.validFrom s par

/-- the `parent` field of the `Node` class. -/
def Node.parent : Node → Option Node
  | Node.root _ => none
  | Node.child _ par _ => some par

/-- `q` is reachable from `p` by some number of legal moves. -/
def Reach (p q : Puzzle) : Prop := ∃ n : Nat, Steps p q n

/-- The row-major digit string of a flattened board (so that
`p.toStr = listStr p.flat` definitionally). -/
def listStr (l : List Nat) : String := String.join (l.map (fun n => Nat.repr n))

/-- All state strings a search started on `s` can ever record: the strings of
the permutations of `s`'s tiles. -/
def allowedStrings (s : Puzzle) : Finset String :=
  (s.flat.permutations.map listStr).toFinset

/-- Termination potential of a loop state: every iteration pops one node and
pays two units of the budget of never-seen permutations for each enqueued
child. -/
def seenPot (A : Finset String) (queue : List Node) (seen : List String) : Nat :=
  queue.length + 2 * (A \ seen.toFinset).card

/-- The solver-loop invariant for a search rooted at `s`: queue nodes are
validly built from `s` and recorded; every recorded string belongs to a
reachable board; every recorded reachable board is still queued or has been
expanded (unsolved, with all children recorded); the record has no
duplicates. -/
def LoopInv (s : Puzzle) (queue : List Node) (seen : List String) : Prop :=
  (∀ nd ∈ queue, nd.validFrom s ∧ nd.state ∈ seen) ∧
    (∀ st ∈ seen, ∃ p' : Puzzle, Reach s p' ∧ st = p'.toStr) ∧
    (∀ p' : Puzzle, Reach s p' → p'.toStr ∈ seen →
      (∃ nd ∈ queue, nd.puzzle = p') ∨
        (p'.solved = false ∧ ∀ mv ∈ p'.actions, (mv : Puzzle × Char).1.toStr ∈ seen)) ∧
    seen.Nodup

/-- A successful search result: the returned path starts at the root node of
`s`, ends in a node passing the goal test, and every consecutive pair of
nodes is one legal move apart. -/
def ValidPathFrom (s : Puzzle) (path : List Node) : Prop :=
  path.head? = some (Node.root s) ∧
    (∃ nd : Node, path.getLast? = some nd ∧ nd.solved = true) ∧
    List.Chain' (fun a b => ∃ act : Char, (b.puzzle, act) ∈ a.puzzle.actions) path

/-- A well-formed board as a permutation of the nine flat positions: position
`k` holds tile `boardPerm p h k`.  (The `% 9` is the identity on well-formed
boards and only serves totality of the underlying function.) -/
def boardPerm (p : Puzzle) (h : WF p) : Equiv.Perm (Fin 9) where
  toFun := fun k => ⟨p.flat.getD (k : Nat) 0 % 9, Nat.mod_lt _ (by omega)⟩
  invFun := fun k => ⟨p.flat.indexOf (k : Nat) % 9, Nat.mod_lt _ (by omega)⟩
  left_inv := by
    intro k
    have hlen : p.flat.length = 9 := by simpa using h.2.2.length_eq
    have hnd : p.flat.Nodup := h.2.2.nodup_iff.mpr (by decide)
    have hk : (k : Nat) < p.flat.length := by rw [hlen]; exact k.isLt
    have hget : p.flat.getD (k : Nat) 0 = p.flat[(k : Nat)] :=
      List.getD_eq_getElem p.flat 0 hk
    have hlt : p.flat[(k : Nat)] < 9 := by
      have hm : p.flat[(k : Nat)] ∈ p.flat := List.getElem_mem hk
      have h2 := h.2.2.mem_iff.mp hm
      simp only [List.mem_cons, List.not_mem_nil, or_false] at h2
      omega
    apply Fin.ext
    show p.flat.indexOf (p.flat.getD (k : Nat) 0 % 9) % 9 = (k : Nat)
    rw [hget, Nat.mod_eq_of_lt hlt, List.indexOf_getElem hnd (k : Nat) hk,
      Nat.mod_eq_of_lt (by omega)]
  right_inv := by
    intro k
    have hlen : p.flat.length = 9 := by simpa using h.2.2.length_eq
    have hnd : p.flat.Nodup := h.2.2.nodup_iff.mpr (by decide)
    have hmem : (k : Nat) ∈ p.flat := by
      apply h.2.2.mem_iff.mpr
      have := k.isLt
      interval_cases h' : (k : Nat) <;> decide
    have hidx : p.flat.indexOf (k : Nat) < p.flat.length :=
      List.indexOf_lt_length.mpr hmem
    have hidx9 : p.flat.indexOf (k : Nat) < 9 := by omega
    apply Fin.ext
    show p.flat.getD (p.flat.indexOf (k : Nat) % 9) 0 % 9 = (k : Nat)
    rw [Nat.mod_eq_of_lt hidx9, List.getD_eq_getElem p.flat 0 hidx,
      List.getElem_indexOf hidx, Nat.mod_eq_of_lt k.isLt]

/-- The solvability class of a board: the sign of its tile permutation
combined with the parity of the blank's flat position.  Both flip on every
legal move, so the combination is invariant; a board can reach the goal only
if the two agree. -/
def solvableParity (p : Puzzle) : Bool :=
  if h : WF p then
    decide (Equiv.Perm.sign (boardPerm p h) = 1) == decide (p.flat.indexOf 0 % 2 = 0)
  else true

section Infra

open Puzzle

lemma WF_width {p : Puzzle} (h : WF p) : p.width = 3 := by
  obtain ⟨h3, hrow, -⟩ := h
  rw [List.length_eq_three] at h3
  obtain ⟨r0, r1, r2, hb⟩ := h3
  simp only [Puzzle.width, hb, List.getD]
  exact hrow r0 (by simp [hb])

lemma WF_decomp {p : Puzzle} (h : WF p) :
    ∃ x0 x1 x2 x3 x4 x5 x6 x7 x8 : Nat,
      p.board = [[x0, x1, x2], [x3, x4, x5], [x6, x7, x8]] := by
  obtain ⟨h3, hrow, -⟩ := h
  rw [List.length_eq_three] at h3
  obtain ⟨r0, r1, r2, hb⟩ := h3
  have h0 := hrow r0 (by simp [hb])
  have h1 := hrow r1 (by simp [hb])
  have h2 := hrow r2 (by simp [hb])
  rw [List.length_eq_three] at h0 h1 h2
  obtain ⟨x0, x1, x2, rfl⟩ := h0
  obtain ⟨x3, x4, x5, rfl⟩ := h1
  obtain ⟨x6, x7, x8, rfl⟩ := h2
  exact ⟨x0, x1, x2, x3, x4, x5, x6, x7, x8, hb⟩

/-- Characterisation of membership in `actions`: the moved tile sits at
`(i, j)`, the blank at the grid-adjacent `(r, c)`, and the result is
`move (i, j) (r, c)`. -/
lemma mem_actions {p q : Puzzle} {a : Char} (hq : (q, a) ∈ p.actions) :
    ∃ i j r c : Nat, i < p.width ∧ j < p.width ∧ r < p.width ∧ c < p.width ∧
      cell p.board r c = 0 ∧ Nat.dist i r + Nat.dist j c = 1 ∧
      q = p.move (i, j) (r, c) := by
  unfold Puzzle.actions at hq
  simp only [List.mem_flatMap, List.mem_range, List.mem_filterMap,
    List.mem_cons, List.mem_singleton, List.not_mem_nil] at hq
  obtain ⟨i, hi, j, hj, ac, hac, hcond⟩ := hq
  have split : ac = ('R', ((i : Int), (j : Int) - 1)) ∨
      ac = ('L', ((i : Int), (j : Int) + 1)) ∨
      ac = ('D', ((i : Int) - 1, (j : Int))) ∨
      ac = ('U', ((i : Int) + 1, (j : Int))) := by tauto
  clear hac
  rcases split with rfl | rfl | rfl | rfl
  · -- R: target (i, j - 1)
    simp only at hcond
    split_ifs at hcond with hcnd
    all_goals try exact Option.noConfusion hcond
    obtain ⟨hc1, hc2, hc3, hc4, hc5⟩ := hcnd
    simp only [Option.some.injEq, Prod.mk.injEq] at hcond
    obtain ⟨hmv, -⟩ := hcond
    have e1 : ((i : Int)).toNat = i := by omega
    have e2 : ((j : Int) - 1).toNat = j - 1 := by omega
    rw [e1, e2] at hc5 hmv
    exact ⟨i, j, i, j - 1, hi, hj, hi, by omega, hc5, by simp [Nat.dist] <;> omega, hmv.symm⟩
  · -- L: target (i, j + 1)
    simp only at hcond
    split_ifs at hcond with hcnd
    all_goals try exact Option.noConfusion hcond
    obtain ⟨hc1, hc2, hc3, hc4, hc5⟩ := hcnd
    simp only [Option.some.injEq, Prod.mk.injEq] at hcond
    obtain ⟨hmv, -⟩ := hcond
    have e1 : ((i : Int)).toNat = i := by omega
    have e2 : ((j : Int) + 1).toNat = j + 1 := by omega
    rw [e1, e2] at hc5 hmv
    exact ⟨i, j, i, j + 1, hi, hj, hi, by omega, hc5, by simp [Nat.dist] <;> omega, hmv.symm⟩
  · -- D: target (i - 1, j)
    simp only at hcond
    split_ifs at hcond with hcnd
    all_goals try exact Option.noConfusion hcond
    obtain ⟨hc1, hc2, hc3, hc4, hc5⟩ := hcnd
    simp only [Option.some.injEq, Prod.mk.injEq] at hcond
    obtain ⟨hmv, -⟩ := hcond
    have e1 : ((i : Int) - 1).toNat = i - 1 := by omega
    have e2 : ((j : Int)).toNat = j := by omega
    rw [e1, e2] at hc5 hmv
    exact ⟨i, j, i - 1, j, hi, hj, by omega, hj, hc5, by simp [Nat.dist] <;> omega, hmv.symm⟩
  · -- U: target (i + 1, j)
    simp only at hcond
    split_ifs at hcond with hcnd
    all_goals try exact Option.noConfusion hcond
    obtain ⟨hc1, hc2, hc3, hc4, hc5⟩ := hcnd
    simp only [Option.some.injEq, Prod.mk.injEq] at hcond
    obtain ⟨hmv, -⟩ := hcond
    have e1 : ((i : Int) + 1).toNat = i + 1 := by omega
    have e2 : ((j : Int)).toNat = j := by omega
    rw [e1, e2] at hc5 hmv
    exact ⟨i, j, i + 1, j, hi, hj, by omega, hj, hc5, by simp [Nat.dist] <;> omega, hmv.symm⟩

/-- `board[i][j]` through the row-major flattening, on a 3x3 board. -/
lemma cell_flat {p : Puzzle} (hwf : WF p) {i j : Nat} (hi : i < 3) (hj : j < 3) :
    cell p.board i j = p.flat.getD (3 * i + j) 0 := by
  obtain ⟨x0, x1, x2, x3, x4, x5, x6, x7, x8, hb⟩ := WF_decomp hwf
  obtain ⟨b⟩ := p
  simp only at hb
  subst hb
  interval_cases i <;> interval_cases j <;> rfl

/-- The flattening of a move is the double-set that swaps the two flat
positions. -/
lemma flat_move {p : Puzzle} (hwf : WF p) {i j r c : Nat}
    (hi : i < 3) (hj : j < 3) (hr : r < 3) (hc : c < 3) :
    (p.move (i, j) (r, c)).flat =
      (p.flat.set (3 * i + j) (cell p.board r c)).set (3 * r + c)
        (cell p.board i j) := by
  obtain ⟨x0, x1, x2, x3, x4, x5, x6, x7, x8, hb⟩ := WF_decomp hwf
  obtain ⟨b⟩ := p
  simp only at hb
  subst hb
  interval_cases i <;> interval_cases j <;> interval_cases r <;> interval_cases c <;> rfl

lemma getD_cons_set_perm {α : Type} (d : α) :
    ∀ (l : List α) (k : Nat), k < l.length → ∀ x : α,
      (l.getD k d :: l.set k x).Perm (x :: l) := by
  intro l
  induction l with
  | nil => intro k hk; simp at hk
  | cons y t ih =>
    intro k hk x
    cases k with
    | zero => simpa using List.Perm.swap x y t
    | succ k =>
      have h1 : (t.getD k d :: t.set k x).Perm (x :: t) := ih k (by simpa using hk) x
      have s1 : (t.getD k d :: y :: t.set k x).Perm (y :: t.getD k d :: t.set k x) :=
        List.Perm.swap y (t.getD k d) (t.set k x)
      have s2 : (y :: t.getD k d :: t.set k x).Perm (y :: x :: t) := h1.cons y
      have s3 : (y :: x :: t).Perm (x :: y :: t) := List.Perm.swap x y t
      exact (s1.trans s2).trans s3

/-- Swapping the entries at two in-bounds positions is a permutation. -/
lemma set_set_perm {α : Type} (d : α) :
    ∀ (l : List α) (m k : Nat), m < l.length → k < l.length →
      ((l.set m (l.getD k d)).set k (l.getD m d)).Perm l := by
  intro l
  induction l with
  | nil => intro m k hm; simp at hm
  | cons y t ih =>
    intro m k hm hk
    cases m with
    | zero =>
      cases k with
      | zero => simp
      | succ k =>
        have hk' : k < t.length := by simpa using hk
        exact getD_cons_set_perm d t k hk' y
    | succ m =>
      cases k with
      | zero =>
        have hm' : m < t.length := by simpa using hm
        exact getD_cons_set_perm d t m hm' y
      | succ k =>
        have := ih m k (by simpa using hm) (by simpa using hk)
        simpa using this.cons y

/-- The flattening of a well-formed board has nine entries. -/
lemma WF_flat_length {p : Puzzle} (hwf : WF p) : p.flat.length = 9 := by
  have := hwf.2.2.length_eq
  simpa using this

/-- Moves coming from `actions` permute the flattened board. -/
lemma move_perm {p q : Puzzle} {a : Char} (hwf : WF p) (hq : (q, a) ∈ p.actions) :
    q.flat.Perm p.flat := by
  obtain ⟨i, j, r, c, hi, hj, hr, hc, h0, hd, hmv⟩ := mem_actions hq
  rw [WF_width hwf] at hi hj hr hc
  have hlen : p.flat.length = 9 := WF_flat_length hwf
  have h1 : cell p.board r c = p.flat.getD (3 * r + c) 0 := cell_flat hwf hr hc
  have h2 : cell p.board i j = p.flat.getD (3 * i + j) 0 := cell_flat hwf hi hj
  rw [hmv, flat_move hwf hi hj hr hc, h1, h2]
  exact set_set_perm 0 p.flat (3 * i + j) (3 * r + c) (by omega) (by omega)

end Infra

/-- C6: a legal move yields a board with exactly the same multiset of tile
values as the parent board. -/
theorem C6_move_preserves_multiset {p q : Puzzle} {a : Char}
    (hwf : WF p) (hq : (q, a) ∈ p.actions) :
    (q.flat : Multiset Nat) = (p.flat : Multiset Nat) :=
  Multiset.coe_eq_coe.mpr (move_perm hwf hq)

/-- Witness for C6 at a concrete board and move. -/
theorem C6_move_preserves_multiset_witness :
    WF ⟨[[1, 2, 3], [8, 4, 0], [7, 6, 5]]⟩ ∧
      ((⟨[[1, 2, 3], [8, 0, 4], [7, 6, 5]]⟩ : Puzzle), 'L') ∈
        (⟨[[1, 2, 3], [8, 4, 0], [7, 6, 5]]⟩ : Puzzle).actions ∧
      ((⟨[[1, 2, 3], [8, 0, 4], [7, 6, 5]]⟩ : Puzzle).flat : Multiset Nat) =
        ((⟨[[1, 2, 3], [8, 4, 0], [7, 6, 5]]⟩ : Puzzle).flat : Multiset Nat) :=
  ⟨by decide, by decide,
    C6_move_preserves_multiset (p := ⟨[[1, 2, 3], [8, 4, 0], [7, 6, 5]]⟩)
      (q := ⟨[[1, 2, 3], [8, 0, 4], [7, 6, 5]]⟩) (a := 'L') (by decide) (by decide)⟩

section Frame

lemma copy_eq (p : Puzzle) : p.copy = p := by
  simp [Puzzle.copy]

lemma getD_set {α : Type} (l : List α) (i : Nat) (a : α) (u : Nat) (d : α) :
    (l.set i a).getD u d = if i = u ∧ i < l.length then a else l.getD u d := by
  rw [List.getD_eq_getElem?_getD, List.getElem?_set, List.getD_eq_getElem?_getD]
  by_cases h1 : i = u
  · subst h1
    by_cases h2 : i < l.length
    · simp [h2]
    · simp only [h2, and_false, if_false, if_true]
      rw [List.getElem?_eq_none (by omega)]
  · simp [h1]

lemma cell_setCell (b : Board) (i j w u v : Nat) :
    cell (setCell b i j w) u v =
      if i = u ∧ j = v ∧ i < b.length ∧ j < (b.getD i []).length then w
      else cell b u v := by
  unfold cell setCell
  rw [getD_set]
  by_cases h1 : i = u
  · subst h1
    by_cases h2 : i < b.length
    · rw [if_pos ⟨rfl, h2⟩, getD_set]
      by_cases h3 : j = v
      · subst h3
        by_cases h4 : j < (b.getD i []).length
        · rw [if_pos ⟨rfl, h4⟩, if_pos ⟨rfl, rfl, h2, h4⟩]
        · rw [if_neg (by tauto), if_neg (by tauto)]
      · rw [if_neg (by tauto), if_neg (by tauto)]
    · rw [if_neg (by tauto), if_neg (by tauto)]
  · rw [if_neg (by tauto), if_neg (by tauto)]

/-- Cells other than the two positions of a move are unchanged in the child
board (and the parent, being a value, is untouched). -/
lemma cell_move_frame (p : Puzzle) (ij rc : Nat × Nat) (u v : Nat)
    (h1 : (u, v) ≠ ij) (h2 : (u, v) ≠ rc) :
    cell (p.move ij rc).board u v = cell p.board u v := by
  obtain ⟨i, j⟩ := ij
  obtain ⟨r, c⟩ := rc
  simp only [ne_eq, Prod.mk.injEq, not_and_or] at h1 h2
  unfold Puzzle.move
  simp only [copy_eq]
  rw [cell_setCell, cell_setCell]
  have e1 : ¬(i = u ∧ j = v) := by
    rcases h1 with h | h
    · exact fun hc => h hc.1.symm
    · exact fun hc => h hc.2.symm
  have e2 : ¬(r = u ∧ c = v) := by
    rcases h2 with h | h
    · exact fun hc => h hc.1.symm
    · exact fun hc => h hc.2.symm
  rw [if_neg (by tauto), if_neg (by tauto)]

end Frame

/-- C8: moves are pure.  `copy` returns an equal value, the move result is a
function of the parent's board that differs from it only at the two move
positions, and `actions`, `manhattan` and the goal test depend only on the
board contents. -/
theorem C8_move_is_pure (p : Puzzle) (ij rc : Nat × Nat) :
    p.copy = p ∧
      (∀ u v : Nat, (u, v) ≠ ij → (u, v) ≠ rc →
        cell (p.move ij rc).board u v = cell p.board u v) ∧
      (∀ q : Puzzle, p.board = q.board →
        p.actions = q.actions ∧ p.manhattan = q.manhattan ∧ p.solved = q.solved) := by
  refine ⟨copy_eq p, fun u v h1 h2 => cell_move_frame p ij rc u v h1 h2, fun q hb => ?_⟩
  obtain ⟨b⟩ := p
  obtain ⟨b'⟩ := q
  cases hb
  exact ⟨rfl, rfl, rfl⟩

/-- Witness for C8 at a concrete board, move and off-move cell. -/
theorem C8_move_is_pure_witness :
    ((0 : Nat), (0 : Nat)) ≠ ((1 : Nat), (2 : Nat)) ∧ ((0 : Nat), (0 : Nat)) ≠ ((1 : Nat), (1 : Nat)) ∧
      ((⟨[[1, 2, 3], [8, 4, 0], [7, 6, 5]]⟩ : Puzzle).board = (⟨[[1, 2, 3], [8, 4, 0], [7, 6, 5]]⟩ : Puzzle).board) ∧
      cell ((⟨[[1, 2, 3], [8, 4, 0], [7, 6, 5]]⟩ : Puzzle).move (1, 2) (1, 1)).board 0 0 =
        cell (⟨[[1, 2, 3], [8, 4, 0], [7, 6, 5]]⟩ : Puzzle).board 0 0 :=
  ⟨by decide, by decide, rfl,
    (C8_move_is_pure ⟨[[1, 2, 3], [8, 4, 0], [7, 6, 5]]⟩ (1, 2) (1, 1)).2.1 0 0
      (by decide) (by decide)⟩

section StringBridge

lemma repr_data_lt10 {n : Nat} (h : n < 10) : (Nat.repr n).data = [Nat.digitChar n] := by
  interval_cases n <;> rfl

lemma join_repr_data : ∀ (l : List Nat), (∀ x ∈ l, x < 10) →
    (String.join (l.map (fun n => Nat.repr n))).data = l.map Nat.digitChar := by
  intro l h
  induction l with
  | nil => rfl
  | cons x t ih =>
    have hx : x < 10 := h x (by simp)
    have ht : ∀ y ∈ t, y < 10 := fun y hy => h y (by simp [hy])
    rw [List.map_cons, List.map_cons]
    have : String.join (Nat.repr x :: t.map (fun n => Nat.repr n)) =
        Nat.repr x ++ String.join (t.map (fun n => Nat.repr n)) := by
      rw [String.join_eq, String.join_eq]
      apply String.ext
      simp [String.data_append]
    rw [this, String.data_append, repr_data_lt10 hx, ih ht]
    rfl

lemma toStr_data {p : Puzzle} (h : ∀ x ∈ p.flat, x < 10) :
    p.toStr.data = p.flat.map Nat.digitChar := join_repr_data p.flat h

lemma WF_mem_flat_lt {p : Puzzle} (hwf : WF p) : ∀ x ∈ p.flat, x < 10 := by
  intro x hx
  have hm := hwf.2.2.mem_iff.mp hx
  fin_cases hm <;> omega

lemma map_digitChar_inj : ∀ (l1 l2 : List Nat), (∀ x ∈ l1, x < 10) →
    (∀ x ∈ l2, x < 10) → l1.map Nat.digitChar = l2.map Nat.digitChar → l1 = l2 := by
  intro l1
  induction l1 with
  | nil => intro l2 _ _ h; cases l2 <;> simp_all
  | cons x t ih =>
    intro l2 h1 h2 h
    cases l2 with
    | nil => simp_all
    | cons y s =>
      simp only [List.map_cons, List.cons.injEq] at h
      have hx : x < 10 := h1 x (by simp)
      have hy : y < 10 := h2 y (by simp)
      have hxy : x = y := by
        interval_cases x <;> interval_cases y <;> first | rfl | exact absurd h.1 (by decide)
      have := ih s (fun z hz => h1 z (by simp [hz])) (fun z hz => h2 z (by simp [hz])) h.2
      rw [hxy, this]

lemma eq_of_board_eq {p q : Puzzle} (h : p.board = q.board) : p = q := by
  cases p
  cases q
  exact congrArg Puzzle.mk h

lemma toStr_inj {p q : Puzzle} (hp : WF p) (hq : WF q) (h : p.toStr = q.toStr) :
    p = q := by
  have hd : p.flat.map Nat.digitChar = q.flat.map Nat.digitChar := by
    rw [← toStr_data (WF_mem_flat_lt hp), ← toStr_data (WF_mem_flat_lt hq), h]
  have hflat : p.flat = q.flat :=
    map_digitChar_inj _ _ (WF_mem_flat_lt hp) (WF_mem_flat_lt hq) hd
  obtain ⟨x0, x1, x2, x3, x4, x5, x6, x7, x8, hb⟩ := WF_decomp hp
  obtain ⟨y0, y1, y2, y3, y4, y5, y6, y7, y8, hb'⟩ := WF_decomp hq
  have h1 : p.flat = [x0, x1, x2, x3, x4, x5, x6, x7, x8] := by
    rw [Puzzle.flat, hb]; rfl
  have h2 : q.flat = [y0, y1, y2, y3, y4, y5, y6, y7, y8] := by
    rw [Puzzle.flat, hb']; rfl
  rw [h1, h2] at hflat
  apply eq_of_board_eq
  rw [hb, hb']
  simp only [List.cons.injEq] at hflat
  simp only [List.cons.injEq]
  tauto

/-- For a well-formed board, the `solved` string test holds exactly at the
board of the numpy `goal_state` array. -/
lemma solved_iff_eq_goal {p : Puzzle} (hwf : WF p) :
    p.solved = true ↔ p = goalPuzzle := by
  constructor
  · intro hs
    have hps : p.toStr = "123804765" := by
      simpa [Puzzle.solved] using hs
    have : p.toStr = goalPuzzle.toStr := by rw [hps]; rfl
    exact toStr_inj hwf (by decide) this
  · rintro rfl
    decide

end StringBridge

section Manhattan

lemma manhattan_expand (x0 x1 x2 x3 x4 x5 x6 x7 x8 : Nat) :
    Puzzle.manhattan ⟨[[x0, x1, x2], [x3, x4, x5], [x6, x7, x8]]⟩ =
      Puzzle.mterm x0 0 0 + Puzzle.mterm x1 0 1 + Puzzle.mterm x2 0 2 +
      Puzzle.mterm x3 1 0 + Puzzle.mterm x4 1 1 + Puzzle.mterm x5 1 2 +
      Puzzle.mterm x6 2 0 + Puzzle.mterm x7 2 1 + Puzzle.mterm x8 2 2 := by
  have e : Puzzle.manhattan ⟨[[x0, x1, x2], [x3, x4, x5], [x6, x7, x8]]⟩ =
      [Puzzle.mterm x0 0 0, Puzzle.mterm x1 0 1, Puzzle.mterm x2 0 2,
       Puzzle.mterm x3 1 0, Puzzle.mterm x4 1 1, Puzzle.mterm x5 1 2,
       Puzzle.mterm x6 2 0, Puzzle.mterm x7 2 1, Puzzle.mterm x8 2 2].sum := rfl
  rw [e]
  simp only [List.sum_cons, List.sum_nil]
  omega

lemma goalCoord_cell : ∀ v : Nat, v < 9 → v ≠ 0 →
    cell Puzzle.goal_state (Puzzle.goalCoord v).1 (Puzzle.goalCoord v).2 = v := by
  decide

lemma mterm_zero {v i j : Nat} (hv : v < 9) (hnz : v ≠ 0)
    (hm : Puzzle.mterm v i j = 0) : cell Puzzle.goal_state i j = v := by
  unfold Puzzle.mterm at hm
  rw [if_pos hnz] at hm
  have h1 : (Puzzle.goalCoord v).1 = i := by
    simp [Nat.dist] at hm ⊢; omega
  have h2 : (Puzzle.goalCoord v).2 = j := by
    simp [Nat.dist] at hm ⊢; omega
  rw [← h1, ← h2]
  exact goalCoord_cell v hv hnz

lemma WF_mem_flat_lt9 {p : Puzzle} (hwf : WF p) : ∀ x ∈ p.flat, x < 9 := by
  intro x hx
  have hm := hwf.2.2.mem_iff.mp hx
  fin_cases hm <;> omega

lemma WF_flat_nodup {p : Puzzle} (hwf : WF p) : p.flat.Nodup :=
  hwf.2.2.nodup_iff.mpr (by decide)

end Manhattan

lemma nine_sum_zero {a b c d e f g h i : Nat}
    (hs : a + b + c + d + e + f + g + h + i = 0) :
    a = 0 ∧ b = 0 ∧ c = 0 ∧ d = 0 ∧ e = 0 ∧ f = 0 ∧ g = 0 ∧ h = 0 ∧ i = 0 := by
  omega

/-- C10: on a well-formed board the Manhattan heuristic vanishes exactly when
the string goal test holds, i.e. the numpy `goal_state` array and the literal
`'123804765'` denote the same configuration. -/
theorem C10_manhattan_zero_iff_solved {p : Puzzle} (hwf : WF p) :
    p.manhattan = 0 ↔ p.solved = true := by
  constructor
  · intro hm0
    obtain ⟨x0, x1, x2, x3, x4, x5, x6, x7, x8, hb⟩ := WF_decomp hwf
    have hp9 : p = ⟨[[x0, x1, x2], [x3, x4, x5], [x6, x7, x8]]⟩ := eq_of_board_eq hb
    have hflat : p.flat = [x0, x1, x2, x3, x4, x5, x6, x7, x8] := by rw [hp9]; rfl
    have hlt : ∀ k ∈ ([x0, x1, x2, x3, x4, x5, x6, x7, x8] : List Nat), k < 9 := by
      rw [← hflat]; exact WF_mem_flat_lt9 hwf
    have hnd : ([x0, x1, x2, x3, x4, x5, x6, x7, x8] : List Nat).Nodup := by
      rw [← hflat]; exact WF_flat_nodup hwf
    rw [hp9, manhattan_expand] at hm0
    obtain ⟨t0, t1, t2, t3, t4, t5, t6, t7, t8⟩ := nine_sum_zero hm0
    simp only [List.nodup_cons, List.mem_cons, List.mem_singleton,
      List.not_mem_nil, or_false, not_or, List.nodup_nil, and_true] at hnd
    obtain ⟨⟨n01, n02, n03, n04, n05, n06, n07, n08⟩,
        ⟨n12, n13, n14, n15, n16, n17, n18⟩,
        ⟨n23, n24, n25, n26, n27, n28⟩,
        ⟨n34, n35, n36, n37, n38⟩,
        ⟨n45, n46, n47, n48⟩,
        ⟨n56, n57, n58⟩,
        ⟨n67, n68⟩,
        n78⟩ := hnd
    have hx4 : x4 = 0 := by
      by_cases hz : x4 = 0
      · exact hz
      · have h := mterm_zero (hlt x4 (by simp)) hz t4
        rw [show cell Puzzle.goal_state 1 1 = 0 from by decide] at h
        exact absurd h.symm hz
    subst hx4
    have f0 : x0 = 1 := by
      rcases eq_or_ne x0 0 with hz | hnz
      · exact absurd hz n04
      · have h := mterm_zero (hlt x0 (by simp)) hnz t0
        rw [show cell Puzzle.goal_state 0 0 = 1 from by decide] at h
        exact h.symm
    have f1 : x1 = 2 := by
      rcases eq_or_ne x1 0 with hz | hnz
      · exact absurd hz n14
      · have h := mterm_zero (hlt x1 (by simp)) hnz t1
        rw [show cell Puzzle.goal_state 0 1 = 2 from by decide] at h
        exact h.symm
    have f2 : x2 = 3 := by
      rcases eq_or_ne x2 0 with hz | hnz
      · exact absurd hz n24
      · have h := mterm_zero (hlt x2 (by simp)) hnz t2
        rw [show cell Puzzle.goal_state 0 2 = 3 from by decide] at h
        exact h.symm
    have f3 : x3 = 8 := by
      rcases eq_or_ne x3 0 with hz | hnz
      · exact absurd hz n34
      · have h := mterm_zero (hlt x3 (by simp)) hnz t3
        rw [show cell Puzzle.goal_state 1 0 = 8 from by decide] at h
        exact h.symm
    have f5 : x5 = 4 := by
      rcases eq_or_ne x5 0 with hz | hnz
      · exact absurd hz.symm n45
      · have h := mterm_zero (hlt x5 (by simp)) hnz t5
        rw [show cell Puzzle.goal_state 1 2 = 4 from by decide] at h
        exact h.symm
    have f6 : x6 = 7 := by
      rcases eq_or_ne x6 0 with hz | hnz
      · exact absurd hz.symm n46
      · have h := mterm_zero (hlt x6 (by simp)) hnz t6
        rw [show cell Puzzle.goal_state 2 0 = 7 from by decide] at h
        exact h.symm
    have f7 : x7 = 6 := by
      rcases eq_or_ne x7 0 with hz | hnz
      · exact absurd hz.symm n47
      · have h := mterm_zero (hlt x7 (by simp)) hnz t7
        rw [show cell Puzzle.goal_state 2 1 = 6 from by decide] at h
        exact h.symm
    have f8 : x8 = 5 := by
      rcases eq_or_ne x8 0 with hz | hnz
      · exact absurd hz.symm n48
      · have h := mterm_zero (hlt x8 (by simp)) hnz t8
        rw [show cell Puzzle.goal_state 2 2 = 5 from by decide] at h
        exact h.symm
    rw [hp9, f0, f1, f2, f3, f5, f6, f7, f8]
    decide
  · intro hs
    rw [(solved_iff_eq_goal hwf).mp hs]
    decide

/-- Witness for C10 at the goal board. -/
theorem C10_manhattan_zero_iff_solved_witness :
    WF goalPuzzle ∧
      (Puzzle.manhattan goalPuzzle = 0 ↔ Puzzle.solved goalPuzzle = true) :=
  ⟨by decide, C10_manhattan_zero_iff_solved (by decide)⟩

section Parsing

lemma optList_isSome {α : Type} :
    ∀ l : List (Option α), (∀ x ∈ l, x.isSome) → (optList l).isSome := by
  intro l
  induction l with
  | nil => intro _; rfl
  | cons x t ih =>
    intro hall
    obtain ⟨y, hy⟩ := Option.isSome_iff_exists.mp (hall x (by simp))
    obtain ⟨ys, hys⟩ := Option.isSome_iff_exists.mp (ih (fun z hz => hall z (by simp [hz])))
    subst hy
    simp [optList, hys]

lemma chunkRows_mem {s row : List Char} (hr : row ∈ chunkRows s) :
    ∀ c ∈ row, c ∈ s := by
  unfold chunkRows at hr
  simp only [List.mem_filterMap, List.mem_range] at hr
  obtain ⟨idx, -, hidx⟩ := hr
  split_ifs at hidx
  intro c hc
  have hrow : (s.drop idx).take 3 = row := Option.some.inj hidx
  rw [← hrow] at hc
  exact List.drop_subset idx s (List.take_subset _ _ hc)

end Parsing

/-- C9 counterexample: the duplicate-valued board string `'111111111'` is not
rejected: `Game.run`'s parsing succeeds, the `Puzzle` is built and the
selected search runs to frontier exhaustion — no malformed-input signal is
produced before the search begins. -/
theorem C9_counterexample :
    game_parse "111111111" = some [[1, 1, 1], [1, 1, 1], [1, 1, 1]] ∧
      game_run "111111111" 3 5 = some (some (none, ["111111111"])) :=
  ⟨rfl, rfl⟩

/-- C9 amended: the only malformed input `Game.run` cannot survive is a
non-digit character, which makes the `int` conversion raise inside the worker
thread; every all-digit string parses successfully — wrong lengths, values
outside `[0, 8]` and duplicates are not detected, and the search is started
on the malformed board. -/
theorem C9_no_validation :
    game_parse "12345678a" = none ∧
      game_parse "111111111" = some [[1, 1, 1], [1, 1, 1], [1, 1, 1]] ∧
      game_parse "123456789" = some [[1, 2, 3], [4, 5, 6], [7, 8, 9]] ∧
      game_parse "1234" = some [[1, 2, 3], [4]] ∧
      ∀ s : String, (∀ c ∈ s.data, c.isDigit) → (game_parse s).isSome := by
  refine ⟨rfl, rfl, rfl, rfl, ?_⟩
  intro s hs
  unfold game_parse rowsToInts
  apply optList_isSome
  intro x hx
  simp only [List.mem_map] at hx
  obtain ⟨row, hrow, rfl⟩ := hx
  apply optList_isSome
  intro y hy
  simp only [List.mem_map] at hy
  obtain ⟨c, hc, rfl⟩ := hy
  have : c.isDigit := hs c (chunkRows_mem hrow c hc)
  simp [charToInt, this]

/-- Witness for the universally quantified part of `C9_no_validation`. -/
theorem C9_no_validation_witness :
    (∀ c ∈ ("123804765" : String).data, c.isDigit) ∧
      (game_parse "123804765").isSome :=
  ⟨by decide, C9_no_validation.2.2.2.2 "123804765" (by decide)⟩

section Consistency

lemma mterm_blank (i j : Nat) : Puzzle.mterm 0 i j = 0 := rfl

lemma mterm_adjacent (v i j r c : Nat) (hd : Nat.dist i r + Nat.dist j c = 1) :
    Puzzle.mterm v r c ≤ Puzzle.mterm v i j + 1 ∧
      Puzzle.mterm v i j ≤ Puzzle.mterm v r c + 1 := by
  unfold Puzzle.mterm
  by_cases hv : v ≠ 0
  · rw [if_pos hv, if_pos hv]
    have t1 := Nat.dist.triangle_inequality (Puzzle.goalCoord v).1 i r
    have t2 := Nat.dist.triangle_inequality (Puzzle.goalCoord v).1 r i
    have t3 := Nat.dist.triangle_inequality (Puzzle.goalCoord v).2 j c
    have t4 := Nat.dist.triangle_inequality (Puzzle.goalCoord v).2 c j
    have c1 := Nat.dist_comm i r
    have c2 := Nat.dist_comm j c
    constructor <;> linarith
  · rw [if_neg hv, if_neg hv]
    constructor <;> omega

/-- The Manhattan heuristic changes by at most one across a single legal
move. -/
lemma manhattan_consistent {p q : Puzzle} {a : Char} (hwf : WF p)
    (hq : (q, a) ∈ p.actions) :
    q.manhattan ≤ p.manhattan + 1 ∧ p.manhattan ≤ q.manhattan + 1 := by
  obtain ⟨i, j, r, c, hi, hj, hr, hc, h0, hd, rfl⟩ := mem_actions hq
  rw [WF_width hwf] at hi hj hr hc
  obtain ⟨x0, x1, x2, x3, x4, x5, x6, x7, x8, hb⟩ := WF_decomp hwf
  have hp9 : p = ⟨[[x0, x1, x2], [x3, x4, x5], [x6, x7, x8]]⟩ := eq_of_board_eq hb
  subst hp9
  interval_cases i <;> interval_cases j <;> interval_cases r <;> interval_cases c
  all_goals try exact absurd hd (by decide)
  · have hz : x1 = 0 := h0
    subst hz
    have hm := mterm_adjacent x0 0 0 0 1 (by decide)
    rw [show Puzzle.move (⟨[[x0, 0, x2], [x3, x4, x5], [x6, x7, x8]]⟩ : Puzzle) (0, 0) (0, 1) =
        (⟨[[0, x0, x2], [x3, x4, x5], [x6, x7, x8]]⟩ : Puzzle) from rfl, manhattan_expand, manhattan_expand]
    simp only [mterm_blank]
    exact ⟨by linarith [hm.1, hm.2], by linarith [hm.1, hm.2]⟩
  · have hz : x3 = 0 := h0
    subst hz
    have hm := mterm_adjacent x0 0 0 1 0 (by decide)
    rw [show Puzzle.move (⟨[[x0, x1, x2], [0, x4, x5], [x6, x7, x8]]⟩ : Puzzle) (0, 0) (1, 0) =
        (⟨[[0, x1, x2], [x0, x4, x5], [x6, x7, x8]]⟩ : Puzzle) from rfl, manhattan_expand, manhattan_expand]
    simp only [mterm_blank]
    exact ⟨by linarith [hm.1, hm.2], by linarith [hm.1, hm.2]⟩
  · have hz : x0 = 0 := h0
    subst hz
    have hm := mterm_adjacent x1 0 1 0 0 (by decide)
    rw [show Puzzle.move (⟨[[0, x1, x2], [x3, x4, x5], [x6, x7, x8]]⟩ : Puzzle) (0, 1) (0, 0) =
        (⟨[[x1, 0, x2], [x3, x4, x5], [x6, x7, x8]]⟩ : Puzzle) from rfl, manhattan_expand, manhattan_expand]
    simp only [mterm_blank]
    exact ⟨by linarith [hm.1, hm.2], by linarith [hm.1, hm.2]⟩
  · have hz : x2 = 0 := h0
    subst hz
    have hm := mterm_adjacent x1 0 1 0 2 (by decide)
    rw [show Puzzle.move (⟨[[x0, x1, 0], [x3, x4, x5], [x6, x7, x8]]⟩ : Puzzle) (0, 1) (0, 2) =
        (⟨[[x0, 0, x1], [x3, x4, x5], [x6, x7, x8]]⟩ : Puzzle) from rfl, manhattan_expand, manhattan_expand]
    simp only [mterm_blank]
    exact ⟨by linarith [hm.1, hm.2], by linarith [hm.1, hm.2]⟩
  · have hz : x4 = 0 := h0
    subst hz
    have hm := mterm_adjacent x1 0 1 1 1 (by decide)
    rw [show Puzzle.move (⟨[[x0, x1, x2], [x3, 0, x5], [x6, x7, x8]]⟩ : Puzzle) (0, 1) (1, 1) =
        (⟨[[x0, 0, x2], [x3, x1, x5], [x6, x7, x8]]⟩ : Puzzle) from rfl, manhattan_expand, manhattan_expand]
    simp only [mterm_blank]
    exact ⟨by linarith [hm.1, hm.2], by linarith [hm.1, hm.2]⟩
  · have hz : x1 = 0 := h0
    subst hz
    have hm := mterm_adjacent x2 0 2 0 1 (by decide)
    rw [show Puzzle.move (⟨[[x0, 0, x2], [x3, x4, x5], [x6, x7, x8]]⟩ : Puzzle) (0, 2) (0, 1) =
        (⟨[[x0, x2, 0], [x3, x4, x5], [x6, x7, x8]]⟩ : Puzzle) from rfl, manhattan_expand, manhattan_expand]
    simp only [mterm_blank]
    exact ⟨by linarith [hm.1, hm.2], by linarith [hm.1, hm.2]⟩
  · have hz : x5 = 0 := h0
    subst hz
    have hm := mterm_adjacent x2 0 2 1 2 (by decide)
    rw [show Puzzle.move (⟨[[x0, x1, x2], [x3, x4, 0], [x6, x7, x8]]⟩ : Puzzle) (0, 2) (1, 2) =
        (⟨[[x0, x1, 0], [x3, x4, x2], [x6, x7, x8]]⟩ : Puzzle) from rfl, manhattan_expand, manhattan_expand]
    simp only [mterm_blank]
    exact ⟨by linarith [hm.1, hm.2], by linarith [hm.1, hm.2]⟩
  · have hz : x0 = 0 := h0
    subst hz
    have hm := mterm_adjacent x3 1 0 0 0 (by decide)
    rw [show Puzzle.move (⟨[[0, x1, x2], [x3, x4, x5], [x6, x7, x8]]⟩ : Puzzle) (1, 0) (0, 0) =
        (⟨[[x3, x1, x2], [0, x4, x5], [x6, x7, x8]]⟩ : Puzzle) from rfl, manhattan_expand, manhattan_expand]
    simp only [mterm_blank]
    exact ⟨by linarith [hm.1, hm.2], by linarith [hm.1, hm.2]⟩
  · have hz : x4 = 0 := h0
    subst hz
    have hm := mterm_adjacent x3 1 0 1 1 (by decide)
    rw [show Puzzle.move (⟨[[x0, x1, x2], [x3, 0, x5], [x6, x7, x8]]⟩ : Puzzle) (1, 0) (1, 1) =
        (⟨[[x0, x1, x2], [0, x3, x5], [x6, x7, x8]]⟩ : Puzzle) from rfl, manhattan_expand, manhattan_expand]
    simp only [mterm_blank]
    exact ⟨by linarith [hm.1, hm.2], by linarith [hm.1, hm.2]⟩
  · have hz : x6 = 0 := h0
    subst hz
    have hm := mterm_adjacent x3 1 0 2 0 (by decide)
    rw [show Puzzle.move (⟨[[x0, x1, x2], [x3, x4, x5], [0, x7, x8]]⟩ : Puzzle) (1, 0) (2, 0) =
        (⟨[[x0, x1, x2], [0, x4, x5], [x3, x7, x8]]⟩ : Puzzle) from rfl, manhattan_expand, manhattan_expand]
    simp only [mterm_blank]
    exact ⟨by linarith [hm.1, hm.2], by linarith [hm.1, hm.2]⟩
  · have hz : x1 = 0 := h0
    subst hz
    have hm := mterm_adjacent x4 1 1 0 1 (by decide)
    rw [show Puzzle.move (⟨[[x0, 0, x2], [x3, x4, x5], [x6, x7, x8]]⟩ : Puzzle) (1, 1) (0, 1) =
        (⟨[[x0, x4, x2], [x3, 0, x5], [x6, x7, x8]]⟩ : Puzzle) from rfl, manhattan_expand, manhattan_expand]
    simp only [mterm_blank]
    exact ⟨by linarith [hm.1, hm.2], by linarith [hm.1, hm.2]⟩
  · have hz : x3 = 0 := h0
    subst hz
    have hm := mterm_adjacent x4 1 1 1 0 (by decide)
    rw [show Puzzle.move (⟨[[x0, x1, x2], [0, x4, x5], [x6, x7, x8]]⟩ : Puzzle) (1, 1) (1, 0) =
        (⟨[[x0, x1, x2], [x4, 0, x5], [x6, x7, x8]]⟩ : Puzzle) from rfl, manhattan_expand, manhattan_expand]
    simp only [mterm_blank]
    exact ⟨by linarith [hm.1, hm.2], by linarith [hm.1, hm.2]⟩
  · have hz : x5 = 0 := h0
    subst hz
    have hm := mterm_adjacent x4 1 1 1 2 (by decide)
    rw [show Puzzle.move (⟨[[x0, x1, x2], [x3, x4, 0], [x6, x7, x8]]⟩ : Puzzle) (1, 1) (1, 2) =
        (⟨[[x0, x1, x2], [x3, 0, x4], [x6, x7, x8]]⟩ : Puzzle) from rfl, manhattan_expand, manhattan_expand]
    simp only [mterm_blank]
    exact ⟨by linarith [hm.1, hm.2], by linarith [hm.1, hm.2]⟩
  · have hz : x7 = 0 := h0
    subst hz
    have hm := mterm_adjacent x4 1 1 2 1 (by decide)
    rw [show Puzzle.move (⟨[[x0, x1, x2], [x3, x4, x5], [x6, 0, x8]]⟩ : Puzzle) (1, 1) (2, 1) =
        (⟨[[x0, x1, x2], [x3, 0, x5], [x6, x4, x8]]⟩ : Puzzle) from rfl, manhattan_expand, manhattan_expand]
    simp only [mterm_blank]
    exact ⟨by linarith [hm.1, hm.2], by linarith [hm.1, hm.2]⟩
  · have hz : x2 = 0 := h0
    subst hz
    have hm := mterm_adjacent x5 1 2 0 2 (by decide)
    rw [show Puzzle.move (⟨[[x0, x1, 0], [x3, x4, x5], [x6, x7, x8]]⟩ : Puzzle) (1, 2) (0, 2) =
        (⟨[[x0, x1, x5], [x3, x4, 0], [x6, x7, x8]]⟩ : Puzzle) from rfl, manhattan_expand, manhattan_expand]
    simp only [mterm_blank]
    exact ⟨by linarith [hm.1, hm.2], by linarith [hm.1, hm.2]⟩
  · have hz : x4 = 0 := h0
    subst hz
    have hm := mterm_adjacent x5 1 2 1 1 (by decide)
    rw [show Puzzle.move (⟨[[x0, x1, x2], [x3, 0, x5], [x6, x7, x8]]⟩ : Puzzle) (1, 2) (1, 1) =
        (⟨[[x0, x1, x2], [x3, x5, 0], [x6, x7, x8]]⟩ : Puzzle) from rfl, manhattan_expand, manhattan_expand]
    simp only [mterm_blank]
    exact ⟨by linarith [hm.1, hm.2], by linarith [hm.1, hm.2]⟩
  · have hz : x8 = 0 := h0
    subst hz
    have hm := mterm_adjacent x5 1 2 2 2 (by decide)
    rw [show Puzzle.move (⟨[[x0, x1, x2], [x3, x4, x5], [x6, x7, 0]]⟩ : Puzzle) (1, 2) (2, 2) =
        (⟨[[x0, x1, x2], [x3, x4, 0], [x6, x7, x5]]⟩ : Puzzle) from rfl, manhattan_expand, manhattan_expand]
    simp only [mterm_blank]
    exact ⟨by linarith [hm.1, hm.2], by linarith [hm.1, hm.2]⟩
  · have hz : x3 = 0 := h0
    subst hz
    have hm := mterm_adjacent x6 2 0 1 0 (by decide)
    rw [show Puzzle.move (⟨[[x0, x1, x2], [0, x4, x5], [x6, x7, x8]]⟩ : Puzzle) (2, 0) (1, 0) =
        (⟨[[x0, x1, x2], [x6, x4, x5], [0, x7, x8]]⟩ : Puzzle) from rfl, manhattan_expand, manhattan_expand]
    simp only [mterm_blank]
    exact ⟨by linarith [hm.1, hm.2], by linarith [hm.1, hm.2]⟩
  · have hz : x7 = 0 := h0
    subst hz
    have hm := mterm_adjacent x6 2 0 2 1 (by decide)
    rw [show Puzzle.move (⟨[[x0, x1, x2], [x3, x4, x5], [x6, 0, x8]]⟩ : Puzzle) (2, 0) (2, 1) =
        (⟨[[x0, x1, x2], [x3, x4, x5], [0, x6, x8]]⟩ : Puzzle) from rfl, manhattan_expand, manhattan_expand]
    simp only [mterm_blank]
    exact ⟨by linarith [hm.1, hm.2], by linarith [hm.1, hm.2]⟩
  · have hz : x4 = 0 := h0
    subst hz
    have hm := mterm_adjacent x7 2 1 1 1 (by decide)
    rw [show Puzzle.move (⟨[[x0, x1, x2], [x3, 0, x5], [x6, x7, x8]]⟩ : Puzzle) (2, 1) (1, 1) =
        (⟨[[x0, x1, x2], [x3, x7, x5], [x6, 0, x8]]⟩ : Puzzle) from rfl, manhattan_expand, manhattan_expand]
    simp only [mterm_blank]
    exact ⟨by linarith [hm.1, hm.2], by linarith [hm.1, hm.2]⟩
  · have hz : x6 = 0 := h0
    subst hz
    have hm := mterm_adjacent x7 2 1 2 0 (by decide)
    rw [show Puzzle.move (⟨[[x0, x1, x2], [x3, x4, x5], [0, x7, x8]]⟩ : Puzzle) (2, 1) (2, 0) =
        (⟨[[x0, x1, x2], [x3, x4, x5], [x7, 0, x8]]⟩ : Puzzle) from rfl, manhattan_expand, manhattan_expand]
    simp only [mterm_blank]
    exact ⟨by linarith [hm.1, hm.2], by linarith [hm.1, hm.2]⟩
  · have hz : x8 = 0 := h0
    subst hz
    have hm := mterm_adjacent x7 2 1 2 2 (by decide)
    rw [show Puzzle.move (⟨[[x0, x1, x2], [x3, x4, x5], [x6, x7, 0]]⟩ : Puzzle) (2, 1) (2, 2) =
        (⟨[[x0, x1, x2], [x3, x4, x5], [x6, 0, x7]]⟩ : Puzzle) from rfl, manhattan_expand, manhattan_expand]
    simp only [mterm_blank]
    exact ⟨by linarith [hm.1, hm.2], by linarith [hm.1, hm.2]⟩
  · have hz : x5 = 0 := h0
    subst hz
    have hm := mterm_adjacent x8 2 2 1 2 (by decide)
    rw [show Puzzle.move (⟨[[x0, x1, x2], [x3, x4, 0], [x6, x7, x8]]⟩ : Puzzle) (2, 2) (1, 2) =
        (⟨[[x0, x1, x2], [x3, x4, x8], [x6, x7, 0]]⟩ : Puzzle) from rfl, manhattan_expand, manhattan_expand]
    simp only [mterm_blank]
    exact ⟨by linarith [hm.1, hm.2], by linarith [hm.1, hm.2]⟩
  · have hz : x7 = 0 := h0
    subst hz
    have hm := mterm_adjacent x8 2 2 2 1 (by decide)
    rw [show Puzzle.move (⟨[[x0, x1, x2], [x3, x4, x5], [x6, 0, x8]]⟩ : Puzzle) (2, 2) (2, 1) =
        (⟨[[x0, x1, x2], [x3, x4, x5], [x6, x8, 0]]⟩ : Puzzle) from rfl, manhattan_expand, manhattan_expand]
    simp only [mterm_blank]
    exact ⟨by linarith [hm.1, hm.2], by linarith [hm.1, hm.2]⟩

lemma move_shape {p q : Puzzle} {a : Char} (hwf : WF p) (hq : (q, a) ∈ p.actions) :
    q.board.length = 3 ∧ ∀ row ∈ q.board, row.length = 3 := by
  obtain ⟨i, j, r, c, hi, hj, hr, hc, h0, hd, rfl⟩ := mem_actions hq
  rw [WF_width hwf] at hi hj hr hc
  obtain ⟨x0, x1, x2, x3, x4, x5, x6, x7, x8, hb⟩ := WF_decomp hwf
  have hp9 : p = ⟨[[x0, x1, x2], [x3, x4, x5], [x6, x7, x8]]⟩ := eq_of_board_eq hb
  subst hp9
  interval_cases i <;> interval_cases j <;> interval_cases r <;> interval_cases c
  all_goals try exact absurd hd (by decide)
  · refine ⟨rfl, ?_⟩
    rw [show (Puzzle.move (⟨[[x0, x1, x2], [x3, x4, x5], [x6, x7, x8]]⟩ : Puzzle) (0, 0) (0, 1)).board =
        ([[x1, x0, x2], [x3, x4, x5], [x6, x7, x8]] : Board) from rfl]
    intro row hrow
    simp only [List.mem_cons, List.not_mem_nil, or_false] at hrow
    rcases hrow with rfl | rfl | rfl <;> rfl
  · refine ⟨rfl, ?_⟩
    rw [show (Puzzle.move (⟨[[x0, x1, x2], [x3, x4, x5], [x6, x7, x8]]⟩ : Puzzle) (0, 0) (1, 0)).board =
        ([[x3, x1, x2], [x0, x4, x5], [x6, x7, x8]] : Board) from rfl]
    intro row hrow
    simp only [List.mem_cons, List.not_mem_nil, or_false] at hrow
    rcases hrow with rfl | rfl | rfl <;> rfl
  · refine ⟨rfl, ?_⟩
    rw [show (Puzzle.move (⟨[[x0, x1, x2], [x3, x4, x5], [x6, x7, x8]]⟩ : Puzzle) (0, 1) (0, 0)).board =
        ([[x1, x0, x2], [x3, x4, x5], [x6, x7, x8]] : Board) from rfl]
    intro row hrow
    simp only [List.mem_cons, List.not_mem_nil, or_false] at hrow
    rcases hrow with rfl | rfl | rfl <;> rfl
  · refine ⟨rfl, ?_⟩
    rw [show (Puzzle.move (⟨[[x0, x1, x2], [x3, x4, x5], [x6, x7, x8]]⟩ : Puzzle) (0, 1) (0, 2)).board =
        ([[x0, x2, x1], [x3, x4, x5], [x6, x7, x8]] : Board) from rfl]
    intro row hrow
    simp only [List.mem_cons, List.not_mem_nil, or_false] at hrow
    rcases hrow with rfl | rfl | rfl <;> rfl
  · refine ⟨rfl, ?_⟩
    rw [show (Puzzle.move (⟨[[x0, x1, x2], [x3, x4, x5], [x6, x7, x8]]⟩ : Puzzle) (0, 1) (1, 1)).board =
        ([[x0, x4, x2], [x3, x1, x5], [x6, x7, x8]] : Board) from rfl]
    intro row hrow
    simp only [List.mem_cons, List.not_mem_nil, or_false] at hrow
    rcases hrow with rfl | rfl | rfl <;> rfl
  · refine ⟨rfl, ?_⟩
    rw [show (Puzzle.move (⟨[[x0, x1, x2], [x3, x4, x5], [x6, x7, x8]]⟩ : Puzzle) (0, 2) (0, 1)).board =
        ([[x0, x2, x1], [x3, x4, x5], [x6, x7, x8]] : Board) from rfl]
    intro row hrow
    simp only [List.mem_cons, List.not_mem_nil, or_false] at hrow
    rcases hrow with rfl | rfl | rfl <;> rfl
  · refine ⟨rfl, ?_⟩
    rw [show (Puzzle.move (⟨[[x0, x1, x2], [x3, x4, x5], [x6, x7, x8]]⟩ : Puzzle) (0, 2) (1, 2)).board =
        ([[x0, x1, x5], [x3, x4, x2], [x6, x7, x8]] : Board) from rfl]
    intro row hrow
    simp only [List.mem_cons, List.not_mem_nil, or_false] at hrow
    rcases hrow with rfl | rfl | rfl <;> rfl
  · refine ⟨rfl, ?_⟩
    rw [show (Puzzle.move (⟨[[x0, x1, x2], [x3, x4, x5], [x6, x7, x8]]⟩ : Puzzle) (1, 0) (0, 0)).board =
        ([[x3, x1, x2], [x0, x4, x5], [x6, x7, x8]] : Board) from rfl]
    intro row hrow
    simp only [List.mem_cons, List.not_mem_nil, or_false] at hrow
    rcases hrow with rfl | rfl | rfl <;> rfl
  · refine ⟨rfl, ?_⟩
    rw [show (Puzzle.move (⟨[[x0, x1, x2], [x3, x4, x5], [x6, x7, x8]]⟩ : Puzzle) (1, 0) (1, 1)).board =
        ([[x0, x1, x2], [x4, x3, x5], [x6, x7, x8]] : Board) from rfl]
    intro row hrow
    simp only [List.mem_cons, List.not_mem_nil, or_false] at hrow
    rcases hrow with rfl | rfl | rfl <;> rfl
  · refine ⟨rfl, ?_⟩
    rw [show (Puzzle.move (⟨[[x0, x1, x2], [x3, x4, x5], [x6, x7, x8]]⟩ : Puzzle) (1, 0) (2, 0)).board =
        ([[x0, x1, x2], [x6, x4, x5], [x3, x7, x8]] : Board) from rfl]
    intro row hrow
    simp only [List.mem_cons, List.not_mem_nil, or_false] at hrow
    rcases hrow with rfl | rfl | rfl <;> rfl
  · refine ⟨rfl, ?_⟩
    rw [show (Puzzle.move (⟨[[x0, x1, x2], [x3, x4, x5], [x6, x7, x8]]⟩ : Puzzle) (1, 1) (0, 1)).board =
        ([[x0, x4, x2], [x3, x1, x5], [x6, x7, x8]] : Board) from rfl]
    intro row hrow
    simp only [List.mem_cons, List.not_mem_nil, or_false] at hrow
    rcases hrow with rfl | rfl | rfl <;> rfl
  · refine ⟨rfl, ?_⟩
    rw [show (Puzzle.move (⟨[[x0, x1, x2], [x3, x4, x5], [x6, x7, x8]]⟩ : Puzzle) (1, 1) (1, 0)).board =
        ([[x0, x1, x2], [x4, x3, x5], [x6, x7, x8]] : Board) from rfl]
    intro row hrow
    simp only [List.mem_cons, List.not_mem_nil, or_false] at hrow
    rcases hrow with rfl | rfl | rfl <;> rfl
  · refine ⟨rfl, ?_⟩
    rw [show (Puzzle.move (⟨[[x0, x1, x2], [x3, x4, x5], [x6, x7, x8]]⟩ : Puzzle) (1, 1) (1, 2)).board =
        ([[x0, x1, x2], [x3, x5, x4], [x6, x7, x8]] : Board) from rfl]
    intro row hrow
    simp only [List.mem_cons, List.not_mem_nil, or_false] at hrow
    rcases hrow with rfl | rfl | rfl <;> rfl
  · refine ⟨rfl, ?_⟩
    rw [show (Puzzle.move (⟨[[x0, x1, x2], [x3, x4, x5], [x6, x7, x8]]⟩ : Puzzle) (1, 1) (2, 1)).board =
        ([[x0, x1, x2], [x3, x7, x5], [x6, x4, x8]] : Board) from rfl]
    intro row hrow
    simp only [List.mem_cons, List.not_mem_nil, or_false] at hrow
    rcases hrow with rfl | rfl | rfl <;> rfl
  · refine ⟨rfl, ?_⟩
    rw [show (Puzzle.move (⟨[[x0, x1, x2], [x3, x4, x5], [x6, x7, x8]]⟩ : Puzzle) (1, 2) (0, 2)).board =
        ([[x0, x1, x5], [x3, x4, x2], [x6, x7, x8]] : Board) from rfl]
    intro row hrow
    simp only [List.mem_cons, List.not_mem_nil, or_false] at hrow
    rcases hrow with rfl | rfl | rfl <;> rfl
  · refine ⟨rfl, ?_⟩
    rw [show (Puzzle.move (⟨[[x0, x1, x2], [x3, x4, x5], [x6, x7, x8]]⟩ : Puzzle) (1, 2) (1, 1)).board =
        ([[x0, x1, x2], [x3, x5, x4], [x6, x7, x8]] : Board) from rfl]
    intro row hrow
    simp only [List.mem_cons, List.not_mem_nil, or_false] at hrow
    rcases hrow with rfl | rfl | rfl <;> rfl
  · refine ⟨rfl, ?_⟩
    rw [show (Puzzle.move (⟨[[x0, x1, x2], [x3, x4, x5], [x6, x7, x8]]⟩ : Puzzle) (1, 2) (2, 2)).board =
        ([[x0, x1, x2], [x3, x4, x8], [x6, x7, x5]] : Board) from rfl]
    intro row hrow
    simp only [List.mem_cons, List.not_mem_nil, or_false] at hrow
    rcases hrow with rfl | rfl | rfl <;> rfl
  · refine ⟨rfl, ?_⟩
    rw [show (Puzzle.move (⟨[[x0, x1, x2], [x3, x4, x5], [x6, x7, x8]]⟩ : Puzzle) (2, 0) (1, 0)).board =
        ([[x0, x1, x2], [x6, x4, x5], [x3, x7, x8]] : Board) from rfl]
    intro row hrow
    simp only [List.mem_cons, List.not_mem_nil, or_false] at hrow
    rcases hrow with rfl | rfl | rfl <;> rfl
  · refine ⟨rfl, ?_⟩
    rw [show (Puzzle.move (⟨[[x0, x1, x2], [x3, x4, x5], [x6, x7, x8]]⟩ : Puzzle) (2, 0) (2, 1)).board =
        ([[x0, x1, x2], [x3, x4, x5], [x7, x6, x8]] : Board) from rfl]
    intro row hrow
    simp only [List.mem_cons, List.not_mem_nil, or_false] at hrow
    rcases hrow with rfl | rfl | rfl <;> rfl
  · refine ⟨rfl, ?_⟩
    rw [show (Puzzle.move (⟨[[x0, x1, x2], [x3, x4, x5], [x6, x7, x8]]⟩ : Puzzle) (2, 1) (1, 1)).board =
        ([[x0, x1, x2], [x3, x7, x5], [x6, x4, x8]] : Board) from rfl]
    intro row hrow
    simp only [List.mem_cons, List.not_mem_nil, or_false] at hrow
    rcases hrow with rfl | rfl | rfl <;> rfl
  · refine ⟨rfl, ?_⟩
    rw [show (Puzzle.move (⟨[[x0, x1, x2], [x3, x4, x5], [x6, x7, x8]]⟩ : Puzzle) (2, 1) (2, 0)).board =
        ([[x0, x1, x2], [x3, x4, x5], [x7, x6, x8]] : Board) from rfl]
    intro row hrow
    simp only [List.mem_cons, List.not_mem_nil, or_false] at hrow
    rcases hrow with rfl | rfl | rfl <;> rfl
  · refine ⟨rfl, ?_⟩
    rw [show (Puzzle.move (⟨[[x0, x1, x2], [x3, x4, x5], [x6, x7, x8]]⟩ : Puzzle) (2, 1) (2, 2)).board =
        ([[x0, x1, x2], [x3, x4, x5], [x6, x8, x7]] : Board) from rfl]
    intro row hrow
    simp only [List.mem_cons, List.not_mem_nil, or_false] at hrow
    rcases hrow with rfl | rfl | rfl <;> rfl
  · refine ⟨rfl, ?_⟩
    rw [show (Puzzle.move (⟨[[x0, x1, x2], [x3, x4, x5], [x6, x7, x8]]⟩ : Puzzle) (2, 2) (1, 2)).board =
        ([[x0, x1, x2], [x3, x4, x8], [x6, x7, x5]] : Board) from rfl]
    intro row hrow
    simp only [List.mem_cons, List.not_mem_nil, or_false] at hrow
    rcases hrow with rfl | rfl | rfl <;> rfl
  · refine ⟨rfl, ?_⟩
    rw [show (Puzzle.move (⟨[[x0, x1, x2], [x3, x4, x5], [x6, x7, x8]]⟩ : Puzzle) (2, 2) (2, 1)).board =
        ([[x0, x1, x2], [x3, x4, x5], [x6, x8, x7]] : Board) from rfl]
    intro row hrow
    simp only [List.mem_cons, List.not_mem_nil, or_false] at hrow
    rcases hrow with rfl | rfl | rfl <;> rfl

/-- Well-formedness is preserved by every legal move. -/
lemma WF_move {p q : Puzzle} {a : Char} (hwf : WF p) (hq : (q, a) ∈ p.actions) :
    WF q :=
  ⟨(move_shape hwf hq).1, (move_shape hwf hq).2,
    (move_perm hwf hq).trans hwf.2.2⟩

lemma WF_steps {p q : Puzzle} {n : Nat} (hwf : WF p) (hs : Steps p q n) : WF q := by
  induction hs with
  | refl => exact hwf
  | tail _ hstep ih =>
    obtain ⟨a, ha⟩ := hstep
    exact WF_move ih ha

/-- Along an `n`-move path the heuristic changes by at most `n`. -/
lemma manhattan_steps_bound {p q : Puzzle} {n : Nat} (hwf : WF p)
    (hs : Steps p q n) : p.manhattan ≤ n + q.manhattan := by
  induction hs with
  | refl => simp
  | tail hs' hstep ih =>
    obtain ⟨a, ha⟩ := hstep
    have hcons := manhattan_consistent (WF_steps hwf hs') ha
    omega

end Consistency

/-- C2: on well-formed boards the Manhattan heuristic is admissible — it never
exceeds the length of any move sequence reaching the goal, in particular the
optimal one — and consistent: across one legal move it changes by at most
one. -/
theorem C2_manhattan_admissible_and_consistent {p q : Puzzle} {a : Char}
    {n : Nat} (hwf : WF p) :
    (Steps p goalPuzzle n → p.manhattan ≤ n) ∧
      ((q, a) ∈ p.actions →
        q.manhattan ≤ p.manhattan + 1 ∧ p.manhattan ≤ q.manhattan + 1) := by
  constructor
  · intro hs
    have := manhattan_steps_bound hwf hs
    have hg : Puzzle.manhattan goalPuzzle = 0 := by decide
    omega
  · intro hq
    exact manhattan_consistent hwf hq

/-- Witness for C2 one move away from the goal. -/
theorem C2_manhattan_admissible_and_consistent_witness :
    Puzzle.manhattan ⟨[[1, 2, 3], [8, 4, 0], [7, 6, 5]]⟩ ≤ 1 ∧
      Puzzle.manhattan goalPuzzle ≤
        Puzzle.manhattan ⟨[[1, 2, 3], [8, 4, 0], [7, 6, 5]]⟩ + 1 :=
  have hth := C2_manhattan_admissible_and_consistent (q := goalPuzzle)
    (a := 'L') (n := 1)
    (p := ⟨[[1, 2, 3], [8, 4, 0], [7, 6, 5]]⟩) (by decide)
  ⟨hth.1 (Steps.tail (Steps.refl _) ⟨'L', by decide⟩), (hth.2 (by decide)).1⟩



section Expand

variable (node : Node)

lemma expand_queue_mono : ∀ (acts : List (Puzzle × Char))
    (qs : List Node × List String) (nd : Node), nd ∈ qs.1 →
    nd ∈ (acts.foldl (expandOne node) qs).1 := by
  intro acts
  induction acts with
  | nil => exact fun qs nd h => h
  | cons mv rest ih =>
    intro qs nd h
    rw [List.foldl_cons]
    apply ih
    unfold expandOne
    split_ifs
    · exact h
    · exact List.mem_cons_of_mem _ h

lemma expand_seen_mono : ∀ (acts : List (Puzzle × Char))
    (qs : List Node × List String) (st : String), st ∈ qs.2 →
    st ∈ (acts.foldl (expandOne node) qs).2 := by
  intro acts
  induction acts with
  | nil => exact fun qs st h => h
  | cons mv rest ih =>
    intro qs st h
    rw [List.foldl_cons]
    apply ih
    unfold expandOne
    split_ifs
    · exact h
    · exact List.mem_cons_of_mem _ h

lemma expand_queue_shape : ∀ (acts : List (Puzzle × Char))
    (qs : List Node × List String) (nd : Node),
    nd ∈ (acts.foldl (expandOne node) qs).1 →
    nd ∈ qs.1 ∨ ∃ mv ∈ acts, nd = Node.child mv.1 node mv.2 := by
  intro acts
  induction acts with
  | nil => exact fun qs nd h => Or.inl h
  | cons mv rest ih =>
    intro qs nd h
    rw [List.foldl_cons] at h
    rcases ih (expandOne node qs mv) nd h with hin | ⟨mv', hmv', rfl⟩
    · unfold expandOne at hin
      split_ifs at hin with hs
      · exact Or.inl hin
      · rcases List.mem_cons.mp hin with rfl | hin2
        · exact Or.inr ⟨mv, List.mem_cons_self _ _, rfl⟩
        · exact Or.inl hin2
    · exact Or.inr ⟨mv', List.mem_cons_of_mem _ hmv', rfl⟩

lemma expand_seen_shape : ∀ (acts : List (Puzzle × Char))
    (qs : List Node × List String) (st : String),
    st ∈ (acts.foldl (expandOne node) qs).2 →
    st ∈ qs.2 ∨ ∃ mv ∈ acts, st = (Node.child mv.1 node mv.2).state := by
  intro acts
  induction acts with
  | nil => exact fun qs st h => Or.inl h
  | cons mv rest ih =>
    intro qs st h
    rw [List.foldl_cons] at h
    rcases ih (expandOne node qs mv) st h with hin | ⟨mv', hmv', rfl⟩
    · unfold expandOne at hin
      split_ifs at hin with hs
      · exact Or.inl hin
      · rcases List.mem_cons.mp hin with rfl | hin2
        · exact Or.inr ⟨mv, List.mem_cons_self _ _, rfl⟩
        · exact Or.inl hin2
    · exact Or.inr ⟨mv', List.mem_cons_of_mem _ hmv', rfl⟩

lemma expand_child_seen : ∀ (acts : List (Puzzle × Char))
    (qs : List Node × List String) (mv : Puzzle × Char), mv ∈ acts →
    (Node.child mv.1 node mv.2).state ∈ (acts.foldl (expandOne node) qs).2 := by
  intro acts
  induction acts with
  | nil => intro qs mv h; cases h
  | cons mv0 rest ih =>
    intro qs mv h
    rw [List.foldl_cons]
    rcases List.mem_cons.mp h with rfl | hmem
    · apply expand_seen_mono
      unfold expandOne
      split_ifs with hs
      · exact hs
      · exact List.mem_cons_self _ _
    · exact ih (expandOne node qs mv0) mv hmem

lemma expand_child_covered : ∀ (acts : List (Puzzle × Char))
    (qs : List Node × List String) (mv : Puzzle × Char), mv ∈ acts →
    (Node.child mv.1 node mv.2).state ∈ qs.2 ∨
      ∃ nd ∈ (acts.foldl (expandOne node) qs).1,
        nd.state = (Node.child mv.1 node mv.2).state := by
  intro acts
  induction acts with
  | nil => intro qs mv h; cases h
  | cons mv0 rest ih =>
    intro qs mv h
    rw [List.foldl_cons]
    rcases List.mem_cons.mp h with rfl | hmem
    · by_cases hs : (Node.child mv.1 node mv.2).state ∈ qs.2
      · exact Or.inl hs
      · right
        refine ⟨Node.child mv.1 node mv.2, ?_, rfl⟩
        apply expand_queue_mono
        unfold expandOne
        rw [if_neg hs]
        exact List.mem_cons_self _ _
    · rcases ih (expandOne node qs mv0) mv hmem with hin | hfound
      · unfold expandOne at hin
        split_ifs at hin with hs0
        · exact Or.inl hin
        · rcases List.mem_cons.mp hin with heq | hin2
          · right
            refine ⟨Node.child mv0.1 node mv0.2, ?_, heq.symm⟩
            apply expand_queue_mono
            unfold expandOne
            rw [if_neg hs0]
            exact List.mem_cons_self _ _
          · exact Or.inl hin2
      · exact Or.inr hfound

lemma expand_seen_nodup : ∀ (acts : List (Puzzle × Char))
    (qs : List Node × List String), qs.2.Nodup →
    ((acts.foldl (expandOne node) qs).2).Nodup := by
  intro acts
  induction acts with
  | nil => exact fun qs h => h
  | cons mv rest ih =>
    intro qs h
    rw [List.foldl_cons]
    apply ih
    unfold expandOne
    split_ifs with hs
    · exact h
    · exact List.nodup_cons.mpr ⟨hs, h⟩

lemma expand_pot (A : Finset String) : ∀ (acts : List (Puzzle × Char))
    (qs : List Node × List String),
    (∀ mv ∈ acts, (Node.child mv.1 node mv.2).state ∈ A) →
    seenPot A (acts.foldl (expandOne node) qs).1 (acts.foldl (expandOne node) qs).2 ≤
      seenPot A qs.1 qs.2 := by
  intro acts
  induction acts with
  | nil => exact fun qs _ => le_refl _
  | cons mv rest ih =>
    intro qs hall
    rw [List.foldl_cons]
    refine le_trans (ih (expandOne node qs mv)
      (fun mv' h' => hall mv' (List.mem_cons_of_mem _ h'))) ?_
    unfold expandOne seenPot
    split_ifs with hs
    · exact le_refl _
    · have hstA : (Node.child mv.1 node mv.2).state ∈ A :=
        hall mv (List.mem_cons_self _ _)
      have hmem : (Node.child mv.1 node mv.2).state ∈ A \ qs.2.toFinset :=
        Finset.mem_sdiff.mpr ⟨hstA, fun hc => hs (List.mem_toFinset.mp hc)⟩
      have hcard : 1 ≤ (A \ qs.2.toFinset).card := Finset.card_pos.mpr ⟨_, hmem⟩
      have herase : (A \ ((Node.child mv.1 node mv.2).state :: qs.2).toFinset).card =
          (A \ qs.2.toFinset).card - 1 := by
        rw [List.toFinset_cons]
        rw [show A \ insert (Node.child mv.1 node mv.2).state qs.2.toFinset =
            (A \ qs.2.toFinset).erase (Node.child mv.1 node mv.2).state from by
          ext x
          simp [Finset.mem_sdiff, Finset.mem_erase]
          tauto]
        exact Finset.card_erase_of_mem hmem
      simp only [List.length_cons]
      omega

end Expand


section Valid

lemma validFrom_reach {s : Puzzle} : ∀ {nd : Node}, nd.validFrom s →
    Steps s nd.puzzle nd.g := by
  intro nd
  induction nd with
  | root p =>
    intro h
    cases h
    exact Steps.refl _
  | child p par act ih =>
    intro h
    exact Steps.tail (ih h.2) ⟨act, h.1⟩

lemma validFrom_wf {s : Puzzle} (hwf : WF s) {nd : Node} (h : nd.validFrom s) :
    WF nd.puzzle := WF_steps hwf (validFrom_reach h)

lemma path_getLast : ∀ nd : Node, nd.path.getLast? = some nd := by
  intro nd
  induction nd with
  | root p => rfl
  | child p par act ih =>
    rw [Node.path, List.getLast?_concat]

lemma path_head {s : Puzzle} : ∀ {nd : Node}, nd.validFrom s →
    nd.path.head? = some (Node.root s) := by
  intro nd
  induction nd with
  | root p =>
    intro h
    cases h
    rfl
  | child p par act ih =>
    intro h
    rw [Node.path, List.head?_append_of_ne_nil]
    · exact ih h.2
    · cases hp : par.path with
      | nil =>
        exfalso
        have := path_getLast par
        rw [hp] at this
        cases this
      | cons a l => simp

lemma path_length : ∀ nd : Node, nd.path.length = nd.g + 1 := by
  intro nd
  induction nd with
  | root p => rfl
  | child p par act ih =>
    rw [Node.path, List.length_append, ih]
    rfl

lemma path_chain {s : Puzzle} : ∀ {nd : Node}, nd.validFrom s →
    List.Chain' (fun a b => ∃ p' act, b = Node.child p' a act ∧ (p', act) ∈ a.actions)
      nd.path := by
  intro nd
  induction nd with
  | root p => intro _; simp [Node.path]
  | child p par act ih =>
    intro h
    rw [Node.path]
    apply List.Chain'.append (ih h.2) (List.chain'_singleton _)
    intro x hx y hy
    rw [path_getLast par] at hx
    cases hx
    simp only [List.head?_cons, Option.mem_def, Option.some.injEq] at hy
    subst hy
    exact ⟨p, act, rfl, h.1⟩

end Valid

section Invariant

lemma LoopInv_init {s : Puzzle} (hwf : WF s) :
    LoopInv s [Node.root s] [(Node.root s).state] := by
  refine ⟨?_, ?_, ?_, ?_⟩
  · intro nd hnd
    rw [List.mem_singleton] at hnd
    subst hnd
    exact ⟨rfl, by simp⟩
  · intro st hst
    rw [List.mem_singleton] at hst
    exact ⟨s, ⟨0, Steps.refl s⟩, hst⟩
  · intro p' hr hst
    rw [List.mem_singleton] at hst
    left
    refine ⟨Node.root s, by simp, ?_⟩
    have hwfp : WF p' := by
      obtain ⟨n, hn⟩ := hr
      exact WF_steps hwf hn
    exact (toStr_inj hwfp hwf hst).symm
  · simp

lemma LoopInv_preserved {s : Puzzle} (hwf : WF s) (key : Node → Nat)
    {queue : List Node} {seen : List String} (hinv : LoopInv s queue seen)
    {node : Node} {rest : List Node}
    (hsort : List.insertionSort (fun a b => key a ≤ key b) queue = node :: rest)
    (hns : node.solved = false) :
    LoopInv s (stepExpand node rest seen).1 (stepExpand node rest seen).2 := by
  obtain ⟨hq, hseen, hclosed, hnd⟩ := hinv
  have hperm : (node :: rest).Perm queue := by
    rw [← hsort]
    exact List.perm_insertionSort _ queue
  have hmemq : ∀ x ∈ node :: rest, x ∈ queue := fun x hx => hperm.mem_iff.mp hx
  have hnode := hq node (hmemq node (List.mem_cons_self _ _))
  have hreaches : ∀ mv ∈ node.actions, Reach s (mv : Puzzle × Char).1 := by
    intro mv hmv
    exact ⟨node.g + 1, Steps.tail (validFrom_reach hnode.1) ⟨mv.2, hmv⟩⟩
  have hvalid1 : ∀ nd ∈ (stepExpand node rest seen).1, nd.validFrom s := by
    intro nd hmem
    rcases expand_queue_shape node node.actions (rest, seen) nd hmem with hin | ⟨mv, hmv, rfl⟩
    · exact (hq nd (hmemq nd (List.mem_cons_of_mem _ hin))).1
    · exact ⟨hmv, hnode.1⟩
  have hbase : ∀ p' : Puzzle, Reach s p' → p'.toStr ∈ seen →
      (∃ nd ∈ (stepExpand node rest seen).1, nd.puzzle = p') ∨
        (p'.solved = false ∧
          ∀ mv ∈ p'.actions, (mv : Puzzle × Char).1.toStr ∈ (stepExpand node rest seen).2) := by
    intro p' hr hst
    rcases hclosed p' hr hst with ⟨nd, hndq, hpz⟩ | ⟨hsv, hch⟩
    · rcases List.mem_cons.mp (hperm.symm.mem_iff.mp hndq) with heqn | hin
      · right
        rw [heqn] at hpz
        subst hpz
        refine ⟨hns, ?_⟩
        intro mv hmv
        exact expand_child_seen node node.actions (rest, seen) mv hmv
      · left
        exact ⟨nd, expand_queue_mono node node.actions (rest, seen) nd hin, hpz⟩
    · right
      exact ⟨hsv, fun mv hmv =>
        expand_seen_mono node node.actions (rest, seen) _ (hch mv hmv)⟩
  refine ⟨?_, ?_, ?_, ?_⟩
  · intro nd hmem
    refine ⟨hvalid1 nd hmem, ?_⟩
    rcases expand_queue_shape node node.actions (rest, seen) nd hmem with hin | ⟨mv, hmv, rfl⟩
    · exact expand_seen_mono node node.actions (rest, seen) _
        (hq nd (hmemq nd (List.mem_cons_of_mem _ hin))).2
    · exact expand_child_seen node node.actions (rest, seen) mv hmv
  · intro st hmem
    rcases expand_seen_shape node node.actions (rest, seen) st hmem with hin | ⟨mv, hmv, rfl⟩
    · exact hseen st hin
    · exact ⟨mv.1, hreaches mv hmv, rfl⟩
  · intro p' hr hst
    rcases expand_seen_shape node node.actions (rest, seen) _ hst with hin | ⟨mv, hmv, heq⟩
    · exact hbase p' hr hin
    · have hwfp : WF p' := by
        obtain ⟨n, hn⟩ := hr
        exact WF_steps hwf hn
      have hwfmv : WF mv.1 := by
        obtain ⟨n, hn⟩ := hreaches mv hmv
        exact WF_steps hwf hn
      have hpeq : p' = mv.1 := toStr_inj hwfp hwfmv heq
      rcases expand_child_covered node node.actions (rest, seen) mv hmv with hin | ⟨nd, hndq, hste⟩
      · exact hbase p' hr (by rw [hpeq]; exact hin)
      · left
        refine ⟨nd, hndq, ?_⟩
        have hwfnd : WF nd.puzzle := validFrom_wf hwf (hvalid1 nd hndq)
        exact toStr_inj hwfnd hwfp (hste.trans heq.symm)
  · exact expand_seen_nodup node node.actions (rest, seen) hnd

end Invariant


section Run

lemma sort_nonempty_absurd {key : Node → Nat} {q : Node} {qs : List Node}
    (heq : List.insertionSort (fun a b => key a ≤ key b) (q :: qs) = []) : False := by
  have hp := List.perm_insertionSort (fun a b => key a ≤ key b) (q :: qs)
  rw [heq] at hp
  exact absurd hp.length_eq (by simp)

lemma steps_flat_perm {s p' : Puzzle} {n : Nat} (hwf : WF s) (hs : Steps s p' n) :
    p'.flat.Perm s.flat := by
  induction hs with
  | refl => exact List.Perm.refl _
  | tail hs' hstep ih =>
    obtain ⟨a, ha⟩ := hstep
    exact (move_perm (WF_steps hwf hs') ha).trans ih

lemma reach_allowed {s p' : Puzzle} (hwf : WF s) (hr : Reach s p') :
    p'.toStr ∈ allowedStrings s := by
  obtain ⟨n, hn⟩ := hr
  have hperm : p'.flat.Perm s.flat := steps_flat_perm hwf hn
  unfold allowedStrings
  rw [List.mem_toFinset]
  exact List.mem_map.mpr ⟨p'.flat, (List.mem_permutations).mpr hperm, rfl⟩

lemma searchLoop_sound {s : Puzzle} (hwf : WF s) (key : Node → Nat) :
    ∀ (fuel : Nat) (queue : List Node) (seen : List String),
      LoopInv s queue seen →
      ∀ {path : List Node} {fseen : List String},
        searchLoop key fuel queue seen = some (some path, fseen) →
        ∃ nd : Node, nd.validFrom s ∧ nd.solved = true ∧ path = nd.path := by
  intro fuel
  induction fuel with
  | zero =>
    intro queue seen _ path fseen h
    cases h
  | succ fuel ih =>
    intro queue seen hinv path fseen h
    cases queue with
    | nil =>
      rw [searchLoop] at h
      simp at h
    | cons q qs =>
      rw [searchLoop] at h
      split at h
      next heq => exact (sort_nonempty_absurd heq).elim
      next node rest heq =>
        split at h
        next hs =>
          have hperm : (node :: rest).Perm (q :: qs) := by
            rw [← heq]
            exact List.perm_insertionSort _ _
          have hv := (hinv.1 node (hperm.mem_iff.mp (List.mem_cons_self _ _))).1
          simp only [Option.some.injEq, Prod.mk.injEq] at h
          exact ⟨node, hv, hs, h.1.symm⟩
        next hs =>
          exact ih _ _ (LoopInv_preserved hwf key hinv heq (by simpa using hs)) h

lemma searchLoop_exhaust {s : Puzzle} (hwf : WF s) (key : Node → Nat) :
    ∀ (fuel : Nat) (queue : List Node) (seen : List String),
      LoopInv s queue seen →
      ∀ {fseen : List String},
        searchLoop key fuel queue seen = some (none, fseen) →
        (∀ st ∈ seen, st ∈ fseen) ∧
          (∀ p' : Puzzle, Reach s p' → p'.toStr ∈ fseen →
            p'.solved = false ∧
              ∀ mv ∈ p'.actions, (mv : Puzzle × Char).1.toStr ∈ fseen) := by
  intro fuel
  induction fuel with
  | zero =>
    intro queue seen _ fseen h
    cases h
  | succ fuel ih =>
    intro queue seen hinv fseen h
    cases queue with
    | nil =>
      rw [searchLoop] at h
      simp only [Option.some.injEq, Prod.mk.injEq] at h
      obtain ⟨-, rfl⟩ := h
      refine ⟨fun st hst => hst, ?_⟩
      intro p' hr hst
      rcases hinv.2.2.1 p' hr hst with ⟨nd, hnd, -⟩ | hdone
      · cases hnd
      · exact hdone
    | cons q qs =>
      rw [searchLoop] at h
      split at h
      next heq => exact (sort_nonempty_absurd heq).elim
      next node rest heq =>
        split at h
        next hs => simp at h
        next hs =>
          have hrec := ih _ _ (LoopInv_preserved hwf key hinv heq (by simpa using hs)) h
          refine ⟨?_, hrec.2⟩
          intro st hst
          exact hrec.1 st (expand_seen_mono node node.actions (rest, seen) st hst)

lemma searchLoop_terminates {s : Puzzle} (hwf : WF s) (key : Node → Nat) :
    ∀ (fuel : Nat) (queue : List Node) (seen : List String),
      LoopInv s queue seen →
      seenPot (allowedStrings s) queue seen < fuel →
      (searchLoop key fuel queue seen).isSome := by
  intro fuel
  induction fuel with
  | zero =>
    intro queue seen _ hpot
    exact absurd hpot (by omega)
  | succ fuel ih =>
    intro queue seen hinv hpot
    cases queue with
    | nil =>
      rw [searchLoop]
      rfl
    | cons q qs =>
      rw [searchLoop]
      split
      next heq => exact (sort_nonempty_absurd heq).elim
      next node rest heq =>
        split
        next hs => rfl
        next hs =>
          apply ih
          · exact LoopInv_preserved hwf key hinv heq (by simpa using hs)
          · have hperm : (node :: rest).Perm (q :: qs) := by
              rw [← heq]
              exact List.perm_insertionSort _ _
            have hlen : rest.length + 1 = qs.length + 1 := by
              simpa using hperm.length_eq
            have hchA : ∀ mv ∈ node.actions,
                (Node.child (mv : Puzzle × Char).1 node mv.2).state ∈ allowedStrings s := by
              intro mv hmv
              have hvnode := (hinv.1 node (hperm.mem_iff.mp (List.mem_cons_self _ _))).1
              exact reach_allowed hwf
                ⟨node.g + 1, Steps.tail (validFrom_reach hvnode) ⟨mv.2, hmv⟩⟩
            have hexp := expand_pot node (allowedStrings s) node.actions (rest, seen) hchA
            unfold stepExpand
            unfold seenPot at hexp hpot ⊢
            simp only [List.length_cons] at hpot hexp ⊢
            omega

end Run


section SolveCore

/-- Shared completeness result: on a well-formed start from which the goal is
reachable, the loop (with any key) terminates returning a path that is a
valid move sequence from the start to the goal; its move count is therefore
the length of some legal path to the goal. -/
lemma solve_core {s : Puzzle} (hwf : WF s) (key : Node → Nat)
    (hr : Reach s goalPuzzle) :
    ∃ (fuel : Nat) (path : List Node) (fseen : List String),
      searchLoop key fuel [Node.root s] [(Node.root s).state] = some (some path, fseen) ∧
      ValidPathFrom s path ∧ Steps s goalPuzzle (path.length - 1) := by
  have hinv := LoopInv_init hwf
  have hterm := searchLoop_terminates hwf key
    (seenPot (allowedStrings s) [Node.root s] [(Node.root s).state] + 1) _ _ hinv
    (by omega)
  obtain ⟨res, hres⟩ := Option.isSome_iff_exists.mp hterm
  obtain ⟨opt, fseen⟩ := res
  cases opt with
  | none =>
    exfalso
    have hex := searchLoop_exhaust hwf key _ _ _ hinv hres
    have hst : s.toStr ∈ fseen := hex.1 _ (List.mem_singleton.mpr rfl)
    have hwalk : ∀ (m : Nat) (q : Puzzle), Steps s q m → q.toStr ∈ fseen := by
      intro m
      induction m with
      | zero =>
        intro q hq
        cases hq
        exact hst
      | succ m ihm =>
        intro q hq
        cases hq with
        | tail hs' hstep =>
          obtain ⟨a, ha⟩ := hstep
          rename_i qmid
          have hmem := ihm qmid hs'
          exact (hex.2 qmid ⟨m, hs'⟩ hmem).2 (q, a) ha
    obtain ⟨n, hn⟩ := hr
    have hgoal := hwalk n goalPuzzle hn
    have hfalse := (hex.2 goalPuzzle ⟨n, hn⟩ hgoal).1
    exact absurd hfalse (by decide)
  | some path =>
    obtain ⟨nd, hvalid, hsolved, rfl⟩ := searchLoop_sound hwf key _ _ _ hinv hres
    refine ⟨_, nd.path, fseen, hres,
      ⟨path_head hvalid, ⟨nd, path_getLast nd, hsolved⟩, ?_⟩, ?_⟩
    · refine List.Chain'.imp ?_ (path_chain hvalid)
      rintro a b ⟨p', act, rfl, hmem⟩
      exact ⟨act, hmem⟩
    · have hwfnd := validFrom_wf hwf hvalid
      have hpg : nd.puzzle = goalPuzzle := (solved_iff_eq_goal hwfnd).mp hsolved
      have hrch := validFrom_reach hvalid
      rw [hpg] at hrch
      rw [path_length nd]
      simpa using hrch

end SolveCore

/-- C4: on every solvable well-formed start board, the greedy
(`solve_best_first_search`) and uniform-cost (`solve_uniform_cost`) solvers
terminate and return a path in which consecutive states differ by exactly one
legal move, starting at the start state and ending at the goal. -/
theorem C4_greedy_and_ucs_terminate_with_valid_path {s : Solver}
    (hwf : WF s.start) (hr : Reach s.start goalPuzzle) :
    (∃ (fuel : Nat) (path : List Node) (fseen : List String),
      s.solve_best_first_search fuel = some (some path, fseen) ∧
        ValidPathFrom s.start path) ∧
    (∃ (fuel : Nat) (path : List Node) (fseen : List String),
      s.solve_uniform_cost fuel = some (some path, fseen) ∧
        ValidPathFrom s.start path) := by
  obtain ⟨f1, p1, s1, h1, hv1, -⟩ := solve_core hwf (fun n => n.h) hr
  obtain ⟨f2, p2, s2, h2, hv2, -⟩ := solve_core hwf (fun n => n.g) hr
  exact ⟨⟨f1, p1, s1, h1, hv1⟩, ⟨f2, p2, s2, h2, hv2⟩⟩

/-- Witness for C4 at a board one move from the goal. -/
theorem C4_greedy_and_ucs_terminate_with_valid_path_witness :
    WF (⟨[[1, 2, 3], [8, 4, 0], [7, 6, 5]]⟩ : Puzzle) ∧
      (∃ (fuel : Nat) (path : List Node) (fseen : List String),
        Solver.solve_best_first_search ⟨⟨[[1, 2, 3], [8, 4, 0], [7, 6, 5]]⟩⟩ fuel =
          some (some path, fseen) ∧
          ValidPathFrom ⟨[[1, 2, 3], [8, 4, 0], [7, 6, 5]]⟩ path) :=
  ⟨by decide,
    (C4_greedy_and_ucs_terminate_with_valid_path
      (s := ⟨⟨[[1, 2, 3], [8, 4, 0], [7, 6, 5]]⟩⟩) (by decide)
      ⟨1, Steps.tail (Steps.refl _) ⟨'L', by decide⟩⟩).1⟩

/-- C7: every successful run of any of the three solvers returns the path
root first: its head is the root node carrying the start state, its last
node passes the goal test, and each node's parent is the node immediately
before it. -/
theorem C7_path_is_root_first {s : Solver} (hwf : WF s.start)
    {fuel : Nat} {path : List Node} {fseen : List String}
    (h : s.solve_a_star fuel = some (some path, fseen) ∨
      s.solve_uniform_cost fuel = some (some path, fseen) ∨
      s.solve_best_first_search fuel = some (some path, fseen)) :
    path.head? = some (Node.root s.start) ∧
      (∃ nd : Node, path.getLast? = some nd ∧ nd.solved = true) ∧
      List.Chain' (fun a b => b.parent = some a) path := by
  have hcore : ∃ nd : Node, nd.validFrom s.start ∧ nd.solved = true ∧ path = nd.path := by
    rcases h with h | h | h
    · exact searchLoop_sound hwf (fun n => n.f) fuel _ _ (LoopInv_init hwf) h
    · exact searchLoop_sound hwf (fun n => n.g) fuel _ _ (LoopInv_init hwf) h
    · exact searchLoop_sound hwf (fun n => n.h) fuel _ _ (LoopInv_init hwf) h
  obtain ⟨nd, hvalid, hsolved, rfl⟩ := hcore
  refine ⟨path_head hvalid, ⟨nd, path_getLast nd, hsolved⟩, ?_⟩
  refine List.Chain'.imp ?_ (path_chain hvalid)
  rintro a b ⟨p', act, rfl, -⟩
  rfl

/-- Witness for C7: the run started on the goal board itself. -/
theorem C7_path_is_root_first_witness :
    WF goalPuzzle ∧
      Solver.solve_a_star ⟨goalPuzzle⟩ 1 =
        some (some [Node.root goalPuzzle], [(Node.root goalPuzzle).state]) ∧
      ([Node.root goalPuzzle] : List Node).head? = some (Node.root goalPuzzle) :=
  ⟨by decide, by rfl,
    (@C7_path_is_root_first ⟨goalPuzzle⟩ (by decide) 1 [Node.root goalPuzzle]
      [(Node.root goalPuzzle).state] (Or.inl (by rfl))).1⟩


/-- C1 counterexample: started on the solvable board `683104275` the A*
solver returns a 15-node path (14 moves) although a 12-move path to the goal
exists, so the returned path length is strictly greater than the true
shortest-path length (visited-on-generation pruning loses the optimal
route). -/
theorem C1_counterexample :
    (Solver.solve_a_star ⟨⟨[[6, 8, 3], [1, 0, 4], [2, 7, 5]]⟩⟩ 50).map
        (fun r => r.1.map List.length) = some (some 15) ∧
      Steps ⟨[[6, 8, 3], [1, 0, 4], [2, 7, 5]]⟩ goalPuzzle 12 := by
  refine ⟨by decide, ?_⟩
  have h0 : Steps (⟨[[6, 8, 3], [1, 0, 4], [2, 7, 5]]⟩ : Puzzle) ⟨[[6, 8, 3], [1, 0, 4], [2, 7, 5]]⟩ 0 := Steps.refl _
  have h1 : Steps (⟨[[6, 8, 3], [1, 0, 4], [2, 7, 5]]⟩ : Puzzle) (⟨[[6, 8, 3], [0, 1, 4], [2, 7, 5]]⟩ : Puzzle) 1 :=
    Steps.tail h0 ⟨'L', by decide⟩
  have h2 : Steps (⟨[[6, 8, 3], [1, 0, 4], [2, 7, 5]]⟩ : Puzzle) (⟨[[0, 8, 3], [6, 1, 4], [2, 7, 5]]⟩ : Puzzle) 2 :=
    Steps.tail h1 ⟨'U', by decide⟩
  have h3 : Steps (⟨[[6, 8, 3], [1, 0, 4], [2, 7, 5]]⟩ : Puzzle) (⟨[[8, 0, 3], [6, 1, 4], [2, 7, 5]]⟩ : Puzzle) 3 :=
    Steps.tail h2 ⟨'R', by decide⟩
  have h4 : Steps (⟨[[6, 8, 3], [1, 0, 4], [2, 7, 5]]⟩ : Puzzle) (⟨[[8, 1, 3], [6, 0, 4], [2, 7, 5]]⟩ : Puzzle) 4 :=
    Steps.tail h3 ⟨'D', by decide⟩
  have h5 : Steps (⟨[[6, 8, 3], [1, 0, 4], [2, 7, 5]]⟩ : Puzzle) (⟨[[8, 1, 3], [0, 6, 4], [2, 7, 5]]⟩ : Puzzle) 5 :=
    Steps.tail h4 ⟨'L', by decide⟩
  have h6 : Steps (⟨[[6, 8, 3], [1, 0, 4], [2, 7, 5]]⟩ : Puzzle) (⟨[[8, 1, 3], [2, 6, 4], [0, 7, 5]]⟩ : Puzzle) 6 :=
    Steps.tail h5 ⟨'D', by decide⟩
  have h7 : Steps (⟨[[6, 8, 3], [1, 0, 4], [2, 7, 5]]⟩ : Puzzle) (⟨[[8, 1, 3], [2, 6, 4], [7, 0, 5]]⟩ : Puzzle) 7 :=
    Steps.tail h6 ⟨'R', by decide⟩
  have h8 : Steps (⟨[[6, 8, 3], [1, 0, 4], [2, 7, 5]]⟩ : Puzzle) (⟨[[8, 1, 3], [2, 0, 4], [7, 6, 5]]⟩ : Puzzle) 8 :=
    Steps.tail h7 ⟨'U', by decide⟩
  have h9 : Steps (⟨[[6, 8, 3], [1, 0, 4], [2, 7, 5]]⟩ : Puzzle) (⟨[[8, 1, 3], [0, 2, 4], [7, 6, 5]]⟩ : Puzzle) 9 :=
    Steps.tail h8 ⟨'L', by decide⟩
  have h10 : Steps (⟨[[6, 8, 3], [1, 0, 4], [2, 7, 5]]⟩ : Puzzle) (⟨[[0, 1, 3], [8, 2, 4], [7, 6, 5]]⟩ : Puzzle) 10 :=
    Steps.tail h9 ⟨'U', by decide⟩
  have h11 : Steps (⟨[[6, 8, 3], [1, 0, 4], [2, 7, 5]]⟩ : Puzzle) (⟨[[1, 0, 3], [8, 2, 4], [7, 6, 5]]⟩ : Puzzle) 11 :=
    Steps.tail h10 ⟨'R', by decide⟩
  have h12 : Steps (⟨[[6, 8, 3], [1, 0, 4], [2, 7, 5]]⟩ : Puzzle) (⟨[[1, 2, 3], [8, 0, 4], [7, 6, 5]]⟩ : Puzzle) 12 :=
    Steps.tail h11 ⟨'D', by decide⟩
  exact h12

/-- C1 amended: on every solvable well-formed start board `solve_a_star`
terminates and returns a path of legal moves from the start to the goal;
its move count is the length of a legal path to the goal (hence at least the
shortest-path length), but not in general equal to it. -/
theorem C1_astar_returns_goal_path {s : Solver} (hwf : WF s.start)
    (hr : Reach s.start goalPuzzle) :
    ∃ (fuel : Nat) (path : List Node) (fseen : List String),
      s.solve_a_star fuel = some (some path, fseen) ∧ ValidPathFrom s.start path ∧
        Steps s.start goalPuzzle (path.length - 1) :=
  solve_core hwf (fun n => n.f) hr

/-- Witness for the amended C1 at a board one move from the goal. -/
theorem C1_astar_returns_goal_path_witness :
    WF (⟨[[1, 2, 3], [8, 4, 0], [7, 6, 5]]⟩ : Puzzle) ∧
      ∃ (fuel : Nat) (path : List Node) (fseen : List String),
        Solver.solve_a_star ⟨⟨[[1, 2, 3], [8, 4, 0], [7, 6, 5]]⟩⟩ fuel =
          some (some path, fseen) ∧
          ValidPathFrom ⟨[[1, 2, 3], [8, 4, 0], [7, 6, 5]]⟩ path ∧
          Steps ⟨[[1, 2, 3], [8, 4, 0], [7, 6, 5]]⟩ goalPuzzle (path.length - 1) :=
  ⟨by decide,
    C1_astar_returns_goal_path (s := ⟨⟨[[1, 2, 3], [8, 4, 0], [7, 6, 5]]⟩⟩)
      (by decide) ⟨1, Steps.tail (Steps.refl _) ⟨'L', by decide⟩⟩⟩


section Parity

lemma indexOf_eq_of_getD_zero {l : List Nat} (hnd : l.Nodup) {k : Nat}
    (hk : k < l.length) (hz : l.getD k 0 = 0) : l.indexOf 0 = k := by
  have hget : l[k] = 0 := by
    rw [← List.getD_eq_getElem l 0 hk]
    exact hz
  have hmem : (0 : Nat) ∈ l := by
    rw [← hget]
    exact List.getElem_mem hk
  have hidx : l.indexOf 0 < l.length := List.indexOf_lt_length.mpr hmem
  have h1 : l[l.indexOf 0] = 0 := List.getElem_indexOf hidx
  exact (hnd.getElem_inj_iff).mp (h1.trans hget.symm)

lemma solvableParity_move {p q : Puzzle} {a : Char} (hwf : WF p)
    (hq : (q, a) ∈ p.actions) : solvableParity q = solvableParity p := by
  have hwq : WF q := WF_move hwf hq
  obtain ⟨i, j, r, c, hi, hj, hr, hc, h0, hd, rfl⟩ := mem_actions hq
  rw [WF_width hwf] at hi hj hr hc
  set p1 := 3 * i + j with hp1def
  set p2 := 3 * r + c with hp2def
  have hp1lt : p1 < 9 := by omega
  have hp2lt : p2 < 9 := by omega
  have hodd : (p1 + p2) % 2 = 1 := by
    simp only [Nat.dist] at hd
    omega
  have hne : p1 ≠ p2 := by omega
  have hlen : p.flat.length = 9 := WF_flat_length hwf
  have hnd : p.flat.Nodup := WF_flat_nodup hwf
  have hndq : (p.move (i, j) (r, c)).flat.Nodup := WF_flat_nodup hwq
  have hlenq : (p.move (i, j) (r, c)).flat.length = 9 := WF_flat_length hwq
  have hflat : (p.move (i, j) (r, c)).flat =
      (p.flat.set p1 (p.flat.getD p2 0)).set p2 (p.flat.getD p1 0) := by
    rw [flat_move hwf hi hj hr hc, cell_flat hwf hr hc, cell_flat hwf hi hj]
  have hz : p.flat.getD p2 0 = 0 := by
    rw [← cell_flat hwf hr hc]
    exact h0
  have hgq : ∀ k : Nat, (p.move (i, j) (r, c)).flat.getD k 0 =
      if p2 = k then p.flat.getD p1 0
      else if p1 = k then p.flat.getD p2 0
      else p.flat.getD k 0 := by
    intro k
    rw [hflat, getD_set, getD_set]
    simp only [List.length_set, hlen]
    by_cases hk2 : p2 = k
    · subst hk2
      simp [hp2lt]
    · by_cases hk1 : p1 = k
      · subst hk1
        simp [hk2, hp1lt]
      · simp [hk1, hk2]
  have hperm_eq : boardPerm (p.move (i, j) (r, c)) hwq =
      boardPerm p hwf *
        Equiv.swap (⟨p1, hp1lt⟩ : Fin 9) (⟨p2, hp2lt⟩ : Fin 9) := by
    apply Equiv.ext
    intro k
    rw [Equiv.Perm.mul_apply]
    apply Fin.ext
    show (p.move (i, j) (r, c)).flat.getD (k : Nat) 0 % 9 =
      p.flat.getD ((Equiv.swap (⟨p1, hp1lt⟩ : Fin 9) ⟨p2, hp2lt⟩ k : Fin 9) : Nat) 0 % 9
    rw [hgq]
    by_cases hk2 : (k : Nat) = p2
    · rw [if_pos hk2.symm]
      have hswap : Equiv.swap (⟨p1, hp1lt⟩ : Fin 9) ⟨p2, hp2lt⟩ k = ⟨p1, hp1lt⟩ := by
        rw [show k = (⟨p2, hp2lt⟩ : Fin 9) from Fin.ext hk2]
        exact Equiv.swap_apply_right _ _
      rw [hswap]
    · rw [if_neg (fun h => hk2 h.symm)]
      by_cases hk1 : (k : Nat) = p1
      · rw [if_pos hk1.symm]
        have hswap : Equiv.swap (⟨p1, hp1lt⟩ : Fin 9) ⟨p2, hp2lt⟩ k = ⟨p2, hp2lt⟩ := by
          rw [show k = (⟨p1, hp1lt⟩ : Fin 9) from Fin.ext hk1]
          exact Equiv.swap_apply_left _ _
        rw [hswap]
      · rw [if_neg (fun h => hk1 h.symm)]
        have hswap : Equiv.swap (⟨p1, hp1lt⟩ : Fin 9) ⟨p2, hp2lt⟩ k = k := by
          apply Equiv.swap_apply_of_ne_of_ne
          · exact fun h => hk1 (congrArg Fin.val h)
          · exact fun h => hk2 (congrArg Fin.val h)
        rw [hswap]
  have hsign : Equiv.Perm.sign (boardPerm (p.move (i, j) (r, c)) hwq) =
      - Equiv.Perm.sign (boardPerm p hwf) := by
    rw [hperm_eq, map_mul, Equiv.Perm.sign_swap (by simp [Fin.ext_iff, hne]),
      mul_neg_one]
  have hbp : p.flat.indexOf 0 = p2 := indexOf_eq_of_getD_zero hnd (by omega) hz
  have hbq : (p.move (i, j) (r, c)).flat.indexOf 0 = p1 := by
    apply indexOf_eq_of_getD_zero hndq (by omega)
    rw [hgq p1, if_neg (Ne.symm hne), if_pos rfl]
    exact hz
  unfold solvableParity
  rw [dif_pos hwq, dif_pos hwf, hbq, hbp, hsign]
  rcases Int.units_eq_one_or (Equiv.Perm.sign (boardPerm p hwf)) with hs | hs <;>
    rw [hs] <;>
    rcases Nat.mod_two_eq_zero_or_one p1 with h1 | h1 <;>
      rcases Nat.mod_two_eq_zero_or_one p2 with h2 | h2 <;>
        first
          | omega
          | (rw [h1, h2]; decide)

lemma solvableParity_steps {s q : Puzzle} {n : Nat} (hwf : WF s)
    (hs : Steps s q n) : solvableParity q = solvableParity s := by
  induction hs with
  | refl => rfl
  | tail hs' hstep ih =>
    obtain ⟨a, ha⟩ := hstep
    rw [solvableParity_move (WF_steps hwf hs') ha, ih]

end Parity

/-- C5: on every well-formed board in the wrong parity class relative to the
goal, each of the three solver entry points terminates by exhausting the
frontier and returns the distinct no-solution result (`None` in the source).
-/
theorem C5_unsolvable_exhausts_frontier {s : Solver} (hwf : WF s.start)
    (hpar : solvableParity s.start ≠ solvableParity goalPuzzle) :
    (∃ (fuel : Nat) (fseen : List String),
      s.solve_a_star fuel = some (none, fseen)) ∧
    (∃ (fuel : Nat) (fseen : List String),
      s.solve_uniform_cost fuel = some (none, fseen)) ∧
    (∃ (fuel : Nat) (fseen : List String),
      s.solve_best_first_search fuel = some (none, fseen)) := by
  have hnr : ¬ Reach s.start goalPuzzle := by
    rintro ⟨n, hn⟩
    exact hpar (solvableParity_steps hwf hn).symm
  have hgen : ∀ key : Node → Nat, ∃ (fuel : Nat) (fseen : List String),
      searchLoop key fuel [Node.root s.start] [(Node.root s.start).state] =
        some (none, fseen) := by
    intro key
    have hinv := LoopInv_init hwf
    have hterm := searchLoop_terminates hwf key
      (seenPot (allowedStrings s.start) [Node.root s.start]
        [(Node.root s.start).state] + 1) _ _ hinv (by omega)
    obtain ⟨res, hres⟩ := Option.isSome_iff_exists.mp hterm
    obtain ⟨opt, fseen⟩ := res
    cases opt with
    | none => exact ⟨_, fseen, hres⟩
    | some path =>
      exfalso
      obtain ⟨nd, hvalid, hsolved, rfl⟩ :=
        searchLoop_sound hwf key _ _ _ hinv hres
      have hwfnd := validFrom_wf hwf hvalid
      have hpg : nd.puzzle = goalPuzzle := (solved_iff_eq_goal hwfnd).mp hsolved
      exact hnr ⟨nd.g, hpg ▸ validFrom_reach hvalid⟩
  exact ⟨hgen _, hgen _, hgen _⟩

/-- Witness for C5: the goal board with its two top tiles exchanged. -/
theorem C5_unsolvable_exhausts_frontier_witness :
    WF (⟨[[2, 1, 3], [8, 0, 4], [7, 6, 5]]⟩ : Puzzle) ∧
      solvableParity ⟨[[2, 1, 3], [8, 0, 4], [7, 6, 5]]⟩ ≠ solvableParity goalPuzzle ∧
      ∃ (fuel : Nat) (fseen : List String),
        Solver.solve_a_star ⟨⟨[[2, 1, 3], [8, 0, 4], [7, 6, 5]]⟩⟩ fuel =
          some (none, fseen) :=
  ⟨by decide, by decide,
    (C5_unsolvable_exhausts_frontier (s := ⟨⟨[[2, 1, 3], [8, 0, 4], [7, 6, 5]]⟩⟩)
      (by decide) (by decide)).1⟩


section TieBreak

lemma insertionSort_head_min (key : Node → Nat) (l : List Node) {node : Node}
    {rest : List Node}
    (h : List.insertionSort (fun a b => key a ≤ key b) l = node :: rest) :
    ∀ x ∈ l, key node ≤ key x := by
  letI : IsTotal Node (fun a b => key a ≤ key b) := ⟨fun a b => le_total _ _⟩
  letI : IsTrans Node (fun a b => key a ≤ key b) := ⟨fun _ _ _ => le_trans⟩
  have hs := List.sorted_insertionSort (fun a b => key a ≤ key b) l
  rw [h] at hs
  have hperm := List.perm_insertionSort (fun a b => key a ≤ key b) l
  rw [h] at hperm
  intro x hx
  rcases List.mem_cons.mp (hperm.mem_iff.mpr hx) with rfl | hx'
  · exact le_refl _
  · exact List.rel_of_sorted_cons hs x hx'

lemma insertionSort_head_firstMin (key : Node → Nat) :
    ∀ (l : List Node) (node : Node) (rest : List Node),
      List.insertionSort (fun a b => key a ≤ key b) l = node :: rest →
      ∃ l1 l2, l = l1 ++ node :: l2 ∧ ∀ x ∈ l1, key node < key x := by
  intro l
  induction l with
  | nil => intro node rest h; cases h
  | cons x t ih =>
    intro node rest h
    rw [List.insertionSort] at h
    cases hst : List.insertionSort (fun a b => key a ≤ key b) t with
    | nil =>
      rw [hst] at h
      simp only [List.orderedInsert] at h
      injection h with h1 h2
      exact ⟨[], t, by rw [← h1]; simp, by simp⟩
    | cons m mt =>
      rw [hst] at h
      rw [List.orderedInsert] at h
      split_ifs at h with hcmp
      · injection h with h1 h2
        exact ⟨[], t, by rw [← h1]; simp, by simp⟩
      · injection h with h1 h2
        obtain ⟨l1, l2, ht, hl1⟩ := ih m mt hst
        refine ⟨x :: l1, l2, by rw [ht, h1]; simp, ?_⟩
        intro y hy
        rcases List.mem_cons.mp hy with rfl | hy'
        · rw [← h1]; omega
        · exact h1 ▸ hl1 y hy'

lemma expandOne_seen (node : Node) (qs : List Node × List String) (mv : Puzzle × Char)
    (h : (Node.child mv.1 node mv.2).state ∈ qs.2) : expandOne node qs mv = qs := by
  rw [expandOne]
  exact if_pos h

lemma expandOne_fresh (node : Node) (qs : List Node × List String) (mv : Puzzle × Char)
    (h : (Node.child mv.1 node mv.2).state ∉ qs.2) :
    expandOne node qs mv =
      (Node.child mv.1 node mv.2 :: qs.1, (Node.child mv.1 node mv.2).state :: qs.2) := by
  rw [expandOne]
  exact if_neg h

lemma stepExpand_prepends (nd : Node) :
    ∀ (acts : List (Puzzle × Char)) (qs : List Node × List String),
      ∃ mvs : List (Puzzle × Char), mvs.Sublist acts ∧
        (acts.foldl (expandOne nd) qs).1 =
          (mvs.map (fun mv => Node.child mv.1 nd mv.2)).reverse ++ qs.1 := by
  intro acts
  induction acts with
  | nil => exact fun qs => ⟨[], List.nil_sublist _, by simp⟩
  | cons mv rest ih =>
    intro qs
    rw [List.foldl_cons]
    by_cases hs : (Node.child mv.1 nd mv.2).state ∈ qs.2
    · rw [expandOne_seen nd qs mv hs]
      obtain ⟨mvs, hsub, heq⟩ := ih qs
      exact ⟨mvs, hsub.cons mv, heq⟩
    · rw [expandOne_fresh nd qs mv hs]
      obtain ⟨mvs, hsub, heq⟩ :=
        ih (Node.child mv.1 nd mv.2 :: qs.1, (Node.child mv.1 nd mv.2).state :: qs.2)
      refine ⟨mv :: mvs, hsub.cons₂ mv, ?_⟩
      rw [heq]
      simp

end TieBreak

/-- C3 counterexample: two iterations of `solve_uniform_cost` started on
`123840765`.  The first expansion pushes the three children on the left of
the deque in generation order (`'U'`, `'L'`, `'D'`), so the deque holds them
latest-first; all three share the minimum key `g = 1`, and the second
iteration's stable re-sort pops the `'D'` child — the most recently inserted
one — while a stable sort over insertion order (FIFO) would pop the `'U'`
child, a different node. -/
theorem C3_counterexample :
    stepExpand (Node.root ⟨[[1, 2, 3], [8, 4, 0], [7, 6, 5]]⟩) []
        [(Node.root ⟨[[1, 2, 3], [8, 4, 0], [7, 6, 5]]⟩).state] =
      ([Node.child ⟨[[1, 2, 3], [8, 4, 5], [7, 6, 0]]⟩
          (Node.root ⟨[[1, 2, 3], [8, 4, 0], [7, 6, 5]]⟩) 'D',
        Node.child ⟨[[1, 2, 3], [8, 0, 4], [7, 6, 5]]⟩
          (Node.root ⟨[[1, 2, 3], [8, 4, 0], [7, 6, 5]]⟩) 'L',
        Node.child ⟨[[1, 2, 0], [8, 4, 3], [7, 6, 5]]⟩
          (Node.root ⟨[[1, 2, 3], [8, 4, 0], [7, 6, 5]]⟩) 'U'],
       ["123845760", "123804765", "120843765", "123840765"]) ∧
      (Node.child ⟨[[1, 2, 3], [8, 4, 5], [7, 6, 0]]⟩
          (Node.root ⟨[[1, 2, 3], [8, 4, 0], [7, 6, 5]]⟩) 'D').g = 1 ∧
      (Node.child ⟨[[1, 2, 3], [8, 0, 4], [7, 6, 5]]⟩
          (Node.root ⟨[[1, 2, 3], [8, 4, 0], [7, 6, 5]]⟩) 'L').g = 1 ∧
      (Node.child ⟨[[1, 2, 0], [8, 4, 3], [7, 6, 5]]⟩
          (Node.root ⟨[[1, 2, 3], [8, 4, 0], [7, 6, 5]]⟩) 'U').g = 1 ∧
      (List.insertionSort (fun a b => Node.g a ≤ Node.g b)
          [Node.child ⟨[[1, 2, 3], [8, 4, 5], [7, 6, 0]]⟩
             (Node.root ⟨[[1, 2, 3], [8, 4, 0], [7, 6, 5]]⟩) 'D',
           Node.child ⟨[[1, 2, 3], [8, 0, 4], [7, 6, 5]]⟩
             (Node.root ⟨[[1, 2, 3], [8, 4, 0], [7, 6, 5]]⟩) 'L',
           Node.child ⟨[[1, 2, 0], [8, 4, 3], [7, 6, 5]]⟩
             (Node.root ⟨[[1, 2, 3], [8, 4, 0], [7, 6, 5]]⟩) 'U']).head? =
        some (Node.child ⟨[[1, 2, 3], [8, 4, 5], [7, 6, 0]]⟩
          (Node.root ⟨[[1, 2, 3], [8, 4, 0], [7, 6, 5]]⟩) 'D') ∧
      (List.insertionSort (fun a b => Node.g a ≤ Node.g b)
          [Node.child ⟨[[1, 2, 0], [8, 4, 3], [7, 6, 5]]⟩
             (Node.root ⟨[[1, 2, 3], [8, 4, 0], [7, 6, 5]]⟩) 'U',
           Node.child ⟨[[1, 2, 3], [8, 0, 4], [7, 6, 5]]⟩
             (Node.root ⟨[[1, 2, 3], [8, 4, 0], [7, 6, 5]]⟩) 'L',
           Node.child ⟨[[1, 2, 3], [8, 4, 5], [7, 6, 0]]⟩
             (Node.root ⟨[[1, 2, 3], [8, 4, 0], [7, 6, 5]]⟩) 'D']).head? =
        some (Node.child ⟨[[1, 2, 0], [8, 4, 3], [7, 6, 5]]⟩
          (Node.root ⟨[[1, 2, 3], [8, 4, 0], [7, 6, 5]]⟩) 'U') ∧
      Node.child ⟨[[1, 2, 3], [8, 4, 5], [7, 6, 0]]⟩
          (Node.root ⟨[[1, 2, 3], [8, 4, 0], [7, 6, 5]]⟩) 'D' ≠
        Node.child ⟨[[1, 2, 0], [8, 4, 3], [7, 6, 5]]⟩
          (Node.root ⟨[[1, 2, 3], [8, 4, 0], [7, 6, 5]]⟩) 'U' := by
  refine ⟨by decide, rfl, rfl, rfl, by decide, by decide, by decide⟩

/-- C3 amended: in every iteration of the three solver loops the node removed
is the head of the stable re-sort of the deque, which is a node of minimum
key, namely the unique minimum-key node nearest the deque's front; and the
expansion step prepends the freshly generated children at the front of the
deque (in reverse generation order).  Hence ties between equal keys are
broken towards the most recently inserted node — LIFO, not FIFO: the
discipline is extraction from a stable sort by key over reverse insertion
order. -/
theorem C3_pop_is_min_key_lifo (key : Node → Nat) (q nd : Node)
    (qs rest : List Node) (seen : List String) :
    (∃ (node : Node) (rest' : List Node),
      List.insertionSort (fun a b => key a ≤ key b) (q :: qs) = node :: rest' ∧
        (∀ x ∈ q :: qs, key node ≤ key x) ∧
        ∃ l1 l2, q :: qs = l1 ++ node :: l2 ∧ ∀ x ∈ l1, key node < key x) ∧
    (∃ mvs : List (Puzzle × Char), mvs.Sublist nd.actions ∧
      (stepExpand nd rest seen).1 =
        (mvs.map (fun mv => Node.child mv.1 nd mv.2)).reverse ++ rest) := by
  constructor
  · cases hsort : List.insertionSort (fun a b => key a ≤ key b) (q :: qs) with
    | nil => exact (sort_nonempty_absurd hsort).elim
    | cons node rest' =>
      exact ⟨node, rest', rfl, insertionSort_head_min key _ hsort,
        insertionSort_head_firstMin key _ node rest' hsort⟩
  · exact stepExpand_prepends nd nd.actions (rest, seen)

end TileSolver
